import Mathlib

/-!
Verification of the visual HTML diff renderer (web_monitoring/html_diff_render.py).

The embedding models parsed HTML documents as a mutual inductive tree
(`Node` / `NodeList`, mirroring Beautiful Soup element trees: tag elements
with attribute lists, navigable strings, and comments).  The functions of
src/web_monitoring/html_diff_render.py are translated one by one below;
names follow the source where Lean allows.

External collaborators that are not part of this repository (the Beautiful
Soup parser and its element API, the lxml.html.diff tokenizer and token
diff engine, and compute_dmp_diff from web_monitoring.differs, which is
not under src/) are modelled from the specification at their documented
interface boundary; every such definition carries a doc comment starting
with "Modelled from the spec:".

Semantics of Beautiful Soup used by the model (documented bs4 behaviour):
a Tag is always truthy (Tag defines bool as True even when empty, ported
from the historical nonzero), a NavigableString is truthy iff non-empty,
None is falsy; dict subscript access raises KeyError for a missing key;
Tag.string descends through single-child chains and returns None when a
tag does not have exactly one string descendant chain.
-/

mutual

inductive Node where
  | element : String → List (String × String) → NodeList → Node
  | text : String → Node
  | comment : String → Node
deriving DecidableEq, Repr

inductive NodeList where
  | nil : NodeList
  | cons : Node → NodeList → NodeList
deriving DecidableEq, Repr

end

namespace NodeList

/-- Conversion of the mutual list of children to an ordinary list. -/
def toL : NodeList → List Node
  | .nil => []
  | .cons n ns => n :: toL ns

/-- Conversion of an ordinary list of nodes to a child list. -/
def ofL : List Node → NodeList
  | [] => .nil
  | n :: ns => .cons n (ofL ns)

/-- Concatenation of child lists. -/
def app : NodeList → NodeList → NodeList
  | .nil, ms => ms
  | .cons n ns, ms => .cons n (app ns ms)

end NodeList

/-- Children of a node (empty for strings and comments). -/
def childrenN : Node → NodeList
  | .element _ _ cs => cs
  | _ => .nil

/-- Attribute list of a node (empty for strings and comments). -/
def attrsN : Node → List (String × String)
  | .element _ a _ => a
  | _ => []

/-- Tag name of a node (empty for strings and comments). -/
def tagN : Node → String
  | .element t _ _ => t
  | _ => ""

/-- Attribute lookup, mirroring bs4 element attribute access by key. -/
def lookupA (a : List (String × String)) (k : String) : Option String :=
  match a with
  | [] => none
  | (k2, v) :: rest => if k2 = k then some v else lookupA rest k

/-- Attribute assignment, mirroring bs4 item assignment on a tag: an
existing key is overwritten in place, a new key is appended. -/
def setA (a : List (String × String)) (k v : String) : List (String × String) :=
  match a with
  | [] => [(k, v)]
  | (k2, v2) :: rest => if k2 = k then (k, v) :: rest else (k2, v2) :: setA rest k v

/-- Modelled from the spec: bs4 truthiness of a parse node.  A Tag is
always truthy (bs4 Tag defines its boolean value as True even with no
contents); a NavigableString or Comment is truthy iff non-empty, like any
Python string. -/
def truthyN : Node → Bool
  | .element _ _ _ => true
  | .text s => s ≠ ""
  | .comment s => s ≠ ""

/-- Modelled from the spec: bs4 truthiness of an optional node (None is
falsy). -/
def truthyO : Option Node → Bool
  | none => false
  | some n => truthyN n

mutual

/-- First element with the given tag name, in document (pre)order,
mirroring soup.find(tag) and the soup.body / soup.head / soup.html /
soup.title accessors. -/
def findTagN (tg : String) : Node → Option Node
  | .element t a cs => if t = tg then some (.element t a cs) else findTagL tg cs
  | .text _ => none
  | .comment _ => none

def findTagL (tg : String) : NodeList → Option Node
  | .nil => none
  | .cons n ns =>
    match findTagN tg n with
    | some r => some r
    | none => findTagL tg ns

end

mutual

/-- Rewrites the first node (in document order) satisfying p by g,
mirroring replace_with / insert / append performed on the first match of a
soup search.  The Bool reports whether a match was found. -/
def mapFirstN (p : Node → Bool) (g : Node → Node) : Node → Node × Bool
  | .element t a cs =>
    if p (.element t a cs) then (g (.element t a cs), true)
    else
      let r := mapFirstL p g cs
      (.element t a r.1, r.2)
  | .text s => if p (.text s) then (g (.text s), true) else (.text s, false)
  | .comment s => if p (.comment s) then (g (.comment s), true) else (.comment s, false)

def mapFirstL (p : Node → Bool) (g : Node → Node) : NodeList → NodeList × Bool
  | .nil => (.nil, false)
  | .cons n ns =>
    let r := mapFirstN p g n
    if r.2 then (.cons r.1 ns, true)
    else
      let r2 := mapFirstL p g ns
      (.cons n r2.1, r2.2)

end

/-- Tag name test used for first-match rewriting. -/
def tagIs (tg : String) (n : Node) : Bool :=
  match n with
  | .element t _ _ => t = tg
  | _ => false

/-- Replaces the first element with the given tag by r, mirroring
soup.find(tag).replace_with(r). -/
def replaceFirstN (tg : String) (r : Node) (soup : Node) : Node :=
  (mapFirstN (tagIs tg) (fun _ => r) soup).1

/-- Appends a child at the end of the first element with the given tag,
mirroring soup.find(tag).append(child); fails when no such element exists
(attribute access on None). -/
def appendToFirstN (tg : String) (child : Node) (soup : Node) : Option Node :=
  match findTagN tg soup with
  | none => none
  | some _ =>
    some (mapFirstN (tagIs tg)
      (fun n => .element (tagN n) (attrsN n) (NodeList.app (childrenN n) (.cons child .nil))) soup).1

/-- Inserts a child at position 0 of the first element with the given tag,
mirroring soup.html.insert(0, child). -/
def insertFirstChildN (tg : String) (child : Node) (soup : Node) : Node :=
  (mapFirstN (tagIs tg) (fun n => .element (tagN n) (attrsN n) (.cons child (childrenN n))) soup).1

mutual

/-- Deep count of nodes satisfying a predicate; the zero cases of this
counter express the cleanliness invariants used throughout. -/
def countN (p : Node → Bool) : Node → Nat
  | .element t a cs => (if p (.element t a cs) then 1 else 0) + countL p cs
  | .text s => if p (.text s) then 1 else 0
  | .comment s => if p (.comment s) then 1 else 0

def countL (p : Node → Bool) : NodeList → Nat
  | .nil => 0
  | .cons n ns => countN p n + countL p ns

end

/-- Comment node test. -/
def isCommentB : Node → Bool
  | .comment _ => true
  | _ => false

/-- Test for the insertion and deletion marker elements of the diff. -/
def isInsDelB (n : Node) : Bool :=
  match n with
  | .element t _ _ => t = "ins" || t = "del"
  | _ => false

/-- Test for elements carrying the reserved placeholder attribute. -/
def hasReservedB (n : Node) : Bool :=
  match n with
  | .element _ a _ => (lookupA a "wm-diff-replacement").isSome
  | _ => false

/-- Test for the protected (undiffable) tags of the extraction pass. -/
def isProtectedTag (t : String) : Bool :=
  t = "script" || t = "style"

/-- Test for protected elements. -/
def isProtectedB (n : Node) : Bool :=
  match n with
  | .element t _ _ => isProtectedTag t
  | _ => false

mutual

/-- Removal of all comment nodes, modelling the two
find_all(string=Comment) extraction passes at the start of
html_diff_render: every comment node is detached from its parent. -/
def removeCommentsN : Node → Node
  | .element t a cs => .element t a (removeCommentsL cs)
  | .text s => .text s
  | .comment s => .comment s

def removeCommentsL : NodeList → NodeList
  | .nil => .nil
  | .cons (.comment _) ns => removeCommentsL ns
  | .cons (.element t a cs) ns => .cons (removeCommentsN (.element t a cs)) (removeCommentsL ns)
  | .cons (.text s) ns => .cons (.text s) (removeCommentsL ns)

end

/-- The placeholder element substituted for one protected element:
an empty element of the same tag carrying the reserved attribute set to
the id, with the single literal text child. -/
def placeholderFor (t rid : String) : Node :=
  .element t [("wm-diff-replacement", rid)]
    (.cons (.text ("$[" ++ rid ++ "]$")) .nil)

mutual

/-- Extraction pass of _remove_undiffable_content: protected elements are
visited in document order (find_all order on a parsed tree, where
protected elements contain only text and therefore never nest); the
element at running index i is recorded in the replacement table under the
id formed from the label, "-" and i, and replaced by its placeholder.  The
running index and the accumulated table are threaded through the
traversal. -/
def rucNode (lbl : String) : Node → Nat → Node × Nat × List (String × Node)
  | .element t a cs, i =>
    if isProtectedTag t then
      let rid := lbl ++ "-" ++ toString i
      (placeholderFor t rid, i + 1, [(rid, .element t a cs)])
    else
      let r := rucList lbl cs i
      (.element t a r.1, r.2.1, r.2.2)
  | .text s, i => (.text s, i, [])
  | .comment s, i => (.comment s, i, [])

def rucList (lbl : String) : NodeList → Nat → NodeList × Nat × List (String × Node)
  | .nil, i => (.nil, i, [])
  | .cons n ns, i =>
    let r := rucNode lbl n i
    let r2 := rucList lbl ns r.2.1
    (.cons r.1 r2.1, r2.2.1, r.2.2 ++ r2.2.2)

end

/-- Wrapper matching the source signature: returns the cleaned-up soup and
the replacement table. -/
def remove_undiffable_content (soup : Node) (lbl : String) :
    Node × List (String × Node) :=
  let r := rucNode lbl soup 0
  (r.1, r.2.2)

/-- Replacement-table lookup; a missing key is a Python KeyError, so the
caller receives none. -/
def tblLookup : List (String × Node) → String → Option Node
  | [], _ => none
  | (k, v) :: rest, rid => if k = rid then some v else tblLookup rest rid

/-- Prefix test over character lists. -/
def charsStart : List Char → List Char → Bool
  | _, [] => true
  | [], _ :: _ => false
  | c :: cs, d :: ds => c = d && charsStart cs ds

/-- Python str.startswith (the id.startswith of the reinsertion pass);
defined over the character lists so that concrete evaluation stays within
kernel reduction. -/
def strStarts (s p : String) : Bool := charsStart s.toList p.toList

/-- Overwrites (or adds) the class attribute of an element, mirroring
class-attribute assignment on the restored bs4 tag. -/
def setClass (n : Node) (v : String) : Node :=
  match n with
  | .element t a cs => .element t (setA a "class" v) cs
  | .text s => .text s
  | .comment s => .comment s

mutual

/-- Reinsertion pass of _add_undiffable_content: every element carrying
the reserved placeholder attribute (the select over the reserved
attribute, in document order) has its id looked up in the replacement
table.  A missing id raises KeyError (none here).  A found replacement is
always truthy (it is a Tag), gets its class attribute overwritten with the
role class, is wrapped in an inert template for old ids, and replaces the
placeholder; replaced content is not rescanned (the select list was
computed before the loop). -/
def aucNode (tbl : List (String × Node)) : Node → Option Node
  | .element t a cs =>
    match lookupA a "wm-diff-replacement" with
    | some rid =>
      match tblLookup tbl rid with
      | none => none
      | some repl =>
        if truthyN repl then
          if strStarts rid "old-" then
            some (.element "template" [("class", "wm-diff-deleted-inert")]
              (.cons (setClass repl "wm-diff-deleted-active") .nil))
          else
            some (setClass repl "wm-diff-inserted-active")
        else
          some (.element t a cs)
    | none =>
      match aucList tbl cs with
      | none => none
      | some cs2 => some (.element t a cs2)
  | .text s => some (.text s)
  | .comment s => some (.comment s)

def aucList (tbl : List (String × Node)) : NodeList → Option NodeList
  | .nil => some .nil
  | .cons n ns =>
    match aucNode tbl n with
    | none => none
    | some n2 =>
      match aucList tbl ns with
      | none => none
      | some ns2 => some (.cons n2 ns2)

end

/-- Wrapper matching the source name. -/
def add_undiffable_content (soup : Node) (tbl : List (String × Node)) : Option Node :=
  aucNode tbl soup

/-- HTML escaping of one character, the quote-escaping table of Python
html.escape (quote=True): ampersand, angle brackets, double quote and
single quote become entities. -/
def escChar (c : Char) : List Char :=
  if c = '&' then "&amp;".toList
  else if c = '<' then "&lt;".toList
  else if c = '>' then "&gt;".toList
  else if c = '"' then "&quot;".toList
  else if c = '\x27' then "&#x27;".toList
  else [c]

/-- Python html.escape with quote=True, as used by
_html_for_dmp_operation.  The sequential str.replace passes of html.escape
(ampersand first) are equivalent to this character-wise map because no
replacement output contains a character replaced by a later pass. -/
def htmlEscape (s : String) : String :=
  String.mk (s.toList.flatMap escChar)

/-- Length of the common prefix of two lists. -/
def commonLen {α : Type} [DecidableEq α] : List α → List α → Nat
  | a :: as, b :: bs => if a = b then commonLen as bs + 1 else 0
  | _, _ => 0

/-- One optional diff piece: empty text produces no operation. -/
def dmpPiece (k : Int) (cs : List Char) : List (Int × String) :=
  if cs.isEmpty then [] else [(k, String.mk cs)]

/-- Modelled from the spec: compute_dmp_diff (web_monitoring.differs, not
under src/), the external character-diff engine of section 6: an ordered
minimal-edit operation sequence over two plain strings, with
semantic cleanup merging scattered equalities.  Modelled as: the common
prefix and common suffix are equal operations, the differing middles are
one delete and one insert.  Equal inputs produce a single equal operation
(none when empty); fully differing inputs produce exactly one delete and
one insert. -/
def compute_dmp_diff (a b : String) : List (Int × String) :=
  let al := a.toList
  let bl := b.toList
  let p := commonLen al bl
  let ar := al.drop p
  let br := bl.drop p
  let s := commonLen ar.reverse br.reverse
  dmpPiece 0 (al.take p)
    ++ dmpPiece (-1) (ar.take (ar.length - s))
    ++ dmpPiece 1 (br.take (br.length - s))
    ++ dmpPiece 0 (ar.drop (ar.length - s))

/-- Conversion of one diff-match-patch operation to an HTML string
(_html_for_dmp_operation): the text is HTML-escaped, then delete
operations are wrapped in the literal del marker and insert operations in
the literal ins marker; equal operations are the escaped text alone. -/
def html_for_dmp_operation (op : Int × String) : String :=
  let html_value := htmlEscape op.2
  if op.1 = -1 then "<del>" ++ html_value ++ "</del>"
  else if op.1 = 1 then "<ins>" ++ html_value ++ "</ins>"
  else html_value

/-- Modelled from the spec: bs4 Tag.string, which returns the single
string descendant reached through a chain of only children, and none
otherwise (Comment is a NavigableString subclass, hence also returned). -/
def tagString : Node → Option String
  | .element _ _ (.cons (.text s) .nil) => some s
  | .element _ _ (.cons (.comment s) .nil) => some s
  | .element _ _ (.cons (.element t a cs) .nil) => tagString (.element t a cs)
  | _ => none

/-- Title text of a document (_get_title): soup.title and
soup.title.string or the empty string.  A missing title, a title without a
single string child, or an empty title string all give the empty
string. -/
def get_title (soup : Node) : String :=
  match findTagN "title" soup with
  | none => ""
  | some t => if truthyN t then ((tagString t).getD "") else ""

/-- Title diff (_diff_title): the character diff of the two title texts,
each operation rendered by html_for_dmp_operation and joined. -/
def diff_title (old new : Node) : String :=
  String.join ((compute_dmp_diff (get_title old) (get_title new)).map html_for_dmp_operation)

/-- Token kind of the body diff: a plain word token, or the anchor-URL
token produced for a elements with an href (lxml href_token). -/
inductive TokKind where
  | word : TokKind
  | href : TokKind
deriving DecidableEq, Repr

/-- Flat markup item of the body-diff stream: a serialized start or end
tag travelling alongside the word tokens, an input word (with its
trailing-whitespace flag), an input anchor URL, or a rendered text piece
of the diff output. -/
inductive Item where
  | openT : String → List (String × String) → Item
  | closeT : String → Item
  | wordI : String → Bool → Item
  | hrefI : String → Item
  | textI : String → Item
deriving DecidableEq, Repr

/-- Modelled from the spec: the comparison token of the external body
tokenizer (section 3 Token and lxml.html.diff token): a comparison value,
the markup context opened immediately before it (pre_tags) and closed
immediately after it (post_tags), a trailing-whitespace flag, its kind,
and whether it has been wrapped as the customized minimal link token
(MinimalHrefToken), which renders as the empty string. -/
structure Tok where
  value : String
  kind : TokKind
  pre_tags : List Item
  post_tags : List Item
  trailing_whitespace : Bool
  minimal : Bool
deriving DecidableEq, Repr

/-- Rendering of one token (token.html()): a word renders as its value;
an anchor-URL token renders as the noisy literal link text by default
(lxml href_token) and as the empty string once wrapped as the minimal
link token. -/
def Tok.htmlR (t : Tok) : String :=
  match t.kind with
  | .word => t.value
  | .href => if t.minimal then "" else " Link: " ++ t.value

/-- Rendered text of one token followed by its trailing whitespace. -/
def Tok.htmlWs (t : Tok) : String :=
  t.htmlR ++ (if t.trailing_whitespace then " " else "")

/-- Splits a text node into word items; each word carries a flag recording
whether whitespace followed it. -/
def splitWordsAux (acc : List Char) : List Char → List Item
  | [] => if acc.isEmpty then [] else [Item.wordI (String.mk acc.reverse) false]
  | c :: rest =>
    if c.isWhitespace then
      if acc.isEmpty then splitWordsAux [] rest
      else Item.wordI (String.mk acc.reverse) true :: splitWordsAux [] rest
    else splitWordsAux (c :: acc) rest

/-- Word items of a string. -/
def splitWords (s : String) : List Item :=
  splitWordsAux [] s.toList

mutual

/-- Modelled from the spec: the flattening step of the external tokenizer
(lxml.html.diff flatten_el): a fragment becomes a flat stream of start
tags, word items and end tags in document order; an anchor with a
non-empty href additionally yields its URL token inside the anchor;
comment nodes yield nothing (they are removed before tokenization in this
pipeline). -/
def flattenN : Node → List Item
  | .text s => splitWords s
  | .comment _ => []
  | .element t a cs =>
    let hrefItems : List Item :=
      if t = "a" then
        match lookupA a "href" with
        | some u => if u = "" then [] else [Item.hrefI u]
        | none => []
      else []
    Item.openT t a :: (flattenL cs ++ hrefItems ++ [Item.closeT t])

def flattenL : NodeList → List Item
  | .nil => []
  | .cons n ns => flattenN n ++ flattenL ns

end

/-- Modelled from the spec: fixup_chunks of lxml.html.diff, grouping a
flat item stream into tokens.  Pending start tags accumulate as the
pre_tags of the next word or URL token; an end tag joins the pending
start tags when there are any and otherwise the post_tags of the token
just emitted; the tags left pending at the end join the post_tags of the
last token.  The token list (reversed while building) and the pending
tags are threaded through. -/
def fixup_chunks (items : List Item) (buf : List Item) (acc : List Tok) :
    List Tok × List Item :=
  match items with
  | [] =>
    match acc with
    | [] => ([], buf)
    | last :: acc2 =>
      (({ last with post_tags := last.post_tags ++ buf } :: acc2).reverse, [])
  | Item.wordI w ws :: rest => fixup_chunks rest [] (⟨w, .word, buf, [], ws, false⟩ :: acc)
  | Item.hrefI u :: rest => fixup_chunks rest [] (⟨u, .href, buf, [], true, false⟩ :: acc)
  | Item.openT t a :: rest => fixup_chunks rest (buf ++ [Item.openT t a]) acc
  | Item.closeT t :: rest =>
    match buf, acc with
    | [], last :: acc2 =>
      fixup_chunks rest [] ({ last with post_tags := last.post_tags ++ [Item.closeT t] } :: acc2)
    | _, _ => fixup_chunks rest (buf ++ [Item.closeT t]) acc
  | Item.textI s :: rest => fixup_chunks rest (buf ++ [Item.textI s]) acc

/-- Modelled from the spec: the external tokenizer interface (tokenize of
lxml.html.diff): a fragment becomes an ordered token sequence with markup
context attached.  When the fragment has no word at all, the tag items
are returned as the second component instead. -/
def tokenize (ns : NodeList) : List Tok × List Item :=
  fixup_chunks (flattenL ns) [] []

/-- Token customization (_customize_token): an anchor-URL token is wrapped
as the minimal link token, keeping its comparison value, pre_tags,
post_tags and trailing-whitespace flag, but rendering as the empty string
(MinimalHrefToken); every other token passes through unchanged. -/
def customize_token (t : Tok) : Tok :=
  match t.kind with
  | .href => ⟨t.value, .href, t.pre_tags, t.post_tags, t.trailing_whitespace, true⟩
  | .word => t

/-- One operation of the token diff: an unchanged token (taken from the
new sequence), a deleted token (from the old sequence) or an inserted
token (from the new sequence). -/
inductive DOp where
  | eq : Tok → DOp
  | del : Tok → DOp
  | ins : Tok → DOp
deriving DecidableEq, Repr

/-- Modelled from the spec: the external token-diff engine
(htmldiff_tokens of lxml.html.diff; an ordered token sequence pair to an
ordered operation sequence with minimal-edit alignment).  Modelled as
common-prefix and common-suffix alignment on comparison values: the
common prefix and suffix become equal operations carrying the new
sequence tokens, the differing middles one run of deletes (old tokens)
followed by one run of inserts (new tokens). -/
def htmldiff_tokens (old new : List Tok) : List DOp :=
  let ov := old.map Tok.value
  let nv := new.map Tok.value
  let p := commonLen ov nv
  let oldr := old.drop p
  let newr := new.drop p
  let s := commonLen ((ov.drop p).reverse) ((nv.drop p).reverse)
  ((new.take p).map DOp.eq)
    ++ ((oldr.take (oldr.length - s)).map DOp.del)
    ++ ((newr.take (newr.length - s)).map DOp.ins)
    ++ ((newr.drop (newr.length - s)).map DOp.eq)

/-- Items of one token in output position: its pre_tags, its rendered
text with trailing whitespace, its post_tags. -/
def tokItems (t : Tok) : List Item :=
  t.pre_tags ++ [Item.textI t.htmlWs] ++ t.post_tags

/-- Stack frame of the unbalanced-tag scan. -/
structure SFrame where
  tagS : String
  attrsS : List (String × String)
  accS : List Item
deriving DecidableEq, Repr

/-- Unwinds the remaining stack at the end of the unbalanced-tag scan:
the still-open start tags are the unmatched opens (in document order) and
their collected contents flow into the balanced part. -/
def suUnwind : List SFrame → List Item → List Item × List Item
  | [], acc => ([], acc)
  | f :: rest, acc =>
    let r := suUnwind rest (f.accS ++ acc)
    (r.1 ++ [Item.openT f.tagS f.attrsS], r.2)

/-- Modelled from the spec: split_unbalanced of lxml.html.diff.  Scans a
chunk of items with a tag stack; start tags whose end tag lies outside the
chunk become unmatched opens, end tags without a start tag in the chunk
become unmatched closes, and everything else (matched tag pairs and text)
is the balanced part, in order. -/
def suAux : List Item → List Item → List SFrame → List Item →
    List Item × List Item × List Item
  | [], acc, st, ucs =>
    let r := suUnwind st acc
    (r.1, r.2, ucs)
  | Item.openT t a :: rest, acc, st, ucs => suAux rest [] (⟨t, a, acc⟩ :: st) ucs
  | Item.closeT t :: rest, acc, [], ucs => suAux rest acc [] (ucs ++ [Item.closeT t])
  | Item.closeT t :: rest, acc, f :: st2, ucs =>
    if f.tagS = t then
      suAux rest (f.accS ++ [Item.openT f.tagS f.attrsS] ++ acc ++ [Item.closeT t]) st2 ucs
    else
      suAux rest acc (f :: st2) (ucs ++ [Item.closeT t])
  | Item.wordI w ws :: rest, acc, st, ucs => suAux rest (acc ++ [Item.wordI w ws]) st ucs
  | Item.hrefI u :: rest, acc, st, ucs => suAux rest (acc ++ [Item.hrefI u]) st ucs
  | Item.textI s :: rest, acc, st, ucs => suAux rest (acc ++ [Item.textI s]) st ucs

/-- Unmatched opens, balanced part and unmatched closes of a chunk. -/
def split_unbalanced (items : List Item) : List Item × List Item × List Item :=
  suAux items [] [] []

/-- Modelled from the spec: the insert-merging of the token-diff engine
(merge_insert): the unmatched opens of the inserted chunk are emitted
before the insertion marker, the balanced part inside it, the unmatched
closes after it, so the marker opens and closes within one scope. -/
def wrapIns (items : List Item) : List Item :=
  let r := split_unbalanced items
  r.1 ++ [Item.openT "ins" []] ++ r.2.1 ++ [Item.closeT "ins"] ++ r.2.2

/-- Modelled from the spec: the delete-merging of the token-diff engine
(merge_delete with cleanup_delete): the balanced part of the deleted chunk
is wrapped in the deletion marker; unmatched tags of the deleted chunk are
not re-emitted, since the corresponding structure is already present from
the new sequence. -/
def wrapDel (items : List Item) : List Item :=
  let r := split_unbalanced items
  [Item.openT "del" []] ++ r.2.1 ++ [Item.closeT "del"]

/-- Run kind of consecutive identical diff operations. -/
inductive RKind where
  | eqR : RKind
  | delR : RKind
  | insR : RKind
deriving DecidableEq, Repr

/-- Kind of one operation. -/
def dopKind : DOp → RKind
  | .eq _ => .eqR
  | .del _ => .delR
  | .ins _ => .insR

/-- Token of one operation. -/
def dopTok : DOp → Tok
  | .eq t => t
  | .del t => t
  | .ins t => t

/-- Groups the operation sequence into maximal runs of one kind. -/
def groupRuns : List DOp → List (RKind × List Tok)
  | [] => []
  | op :: rest =>
    match groupRuns rest with
    | [] => [(dopKind op, [dopTok op])]
    | (k, ts) :: rs =>
      if dopKind op = k then (k, dopTok op :: ts) :: rs
      else (dopKind op, [dopTok op]) :: (k, ts) :: rs

/-- Renders one run: unchanged tokens emit their items as they are;
inserted and deleted runs are wrapped by the markers with the
unbalanced-tag treatment. -/
def renderRun : RKind × List Tok → List Item
  | (.eqR, ts) => ts.flatMap tokItems
  | (.delR, ts) => wrapDel (ts.flatMap tokItems)
  | (.insR, ts) => wrapIns (ts.flatMap tokItems)

/-- Renders the whole operation sequence as a flat item stream. -/
def renderOps (ops : List DOp) : List Item :=
  (groupRuns ops).flatMap renderRun

/-- Stack frame of the fragment rebuilder. -/
structure BFrame where
  tagB : String
  attrsB : List (String × String)
  accB : List Node
deriving DecidableEq, Repr

/-- Closes all still-open elements at the end of the rebuild (parser
recovery for unclosed tags). -/
def rebuildUnwind : List BFrame → List Node → List Node
  | [], acc => acc
  | f :: st, acc => rebuildUnwind st (f.accB ++ [Node.element f.tagB f.attrsB (NodeList.ofL acc)])

/-- Modelled from the spec: the reparse of the serialized diff output
(the serialize and reparse round trip of the document assembler, which
turns the spliced markup strings back into element structure).  A
standard stack machine: start tags open elements, end tags close the
innermost open element, stray end tags are dropped, text items become
string nodes. -/
def rebuildAux : List Item → List Node → List BFrame → List Node
  | [], acc, st => rebuildUnwind st acc
  | Item.openT t a :: rest, acc, st => rebuildAux rest [] (⟨t, a, acc⟩ :: st)
  | Item.closeT _ :: rest, acc, [] => rebuildAux rest acc []
  | Item.closeT _ :: rest, acc, f :: st2 =>
    rebuildAux rest (f.accB ++ [Node.element f.tagB f.attrsB (NodeList.ofL acc)]) st2
  | Item.textI s :: rest, acc, st => rebuildAux rest (acc ++ [Node.text s]) st
  | Item.wordI w ws :: rest, acc, st =>
    rebuildAux rest (acc ++ [Node.text (w ++ (if ws then " " else ""))]) st
  | Item.hrefI _ :: rest, acc, st => rebuildAux rest acc st

/-- Rebuilds a node fragment from a flat item stream. -/
def rebuildItems (items : List Item) : List Node :=
  rebuildAux items [] []

/-- Left trim of a fragment (leading whitespace of the joined diff
string). -/
def trimLeadF : List Node → List Node
  | Node.text s :: rest =>
    let s2 := String.mk (s.toList.dropWhile Char.isWhitespace)
    if s2 = "" then trimLeadF rest else Node.text s2 :: rest
  | ns => ns

/-- Right trim of a REVERSED fragment (trailing whitespace of the joined
diff string). -/
def trimTrailRev : List Node → List Node
  | Node.text s :: rest =>
    let s2 := String.mk ((s.toList.reverse.dropWhile Char.isWhitespace).reverse)
    if s2 = "" then trimTrailRev rest else Node.text s2 :: rest
  | ns => ns

/-- The strip() applied to the joined diff string: leading and trailing
whitespace of the fragment is removed. -/
def stripFrag (ns : List Node) : List Node :=
  (trimTrailRev (trimLeadF ns).reverse).reverse

/-- Modelled from the spec: fixup_ins_del_tags of lxml.html.diff, the
mandatory balance fixup of section 4.3.  Its postcondition (every marker
opens and closes within a single scope, the result parses as valid HTML)
already holds for the structured stream built by renderOps, so the pass
leaves the fragment unchanged here. -/
def fixup_ins_del_tags (ns : List Node) : List Node :=
  ns

/-- The item stream of the customized htmldiff (_htmldiff): tokenize
both fragments, pass every token through customize_token, run the token
diff and render; the string join of the source is the concatenation of
this stream. -/
def htmldiffStream (old new : NodeList) : List Item :=
  let rOld := tokenize old
  let rNew := tokenize new
  let old_tokens := rOld.1.map customize_token
  let new_tokens := rNew.1.map customize_token
  renderOps (htmldiff_tokens old_tokens new_tokens) ++ rNew.2

/-- The rendered fragment of the customized htmldiff: the item stream
rebuilt into nodes, stripped and fixed up. -/
def htmldiff (old new : NodeList) : List Node :=
  fixup_ins_del_tags (stripFrag (rebuildItems (htmldiffStream old new)))

/-- Body diff (_diff_elements): absent fragments (None, falsy) yield the
empty string and no diff is attempted; otherwise the new element is
shallow-copied, cleared, and filled with the htmldiff of the two
serialized elements (the outer tags are skipped by the tokenizer, so the
diff runs over the children). -/
def diff_elements (old new : Option Node) : Node :=
  match old, new with
  | some o, some n =>
    if truthyN o && truthyN n then
      match n with
      | .element t a cs => .element t a (NodeList.ofL (htmldiff (childrenN o) (childrenN (.element t a cs))))
      | .text _ => .text ""
      | .comment _ => .text ""
    else .text ""
  | none, _ => .text ""
  | some _, none => .text ""

/-- The fixed diff styling block inserted into the head (change_styles
string). -/
def wmDiffCss : String :=
  "\n        ins \x7btext-decoration: none; background-color: #d4fcbc;\x7d\n        del \x7btext-decoration: none; background-color: #fbb6c2;\x7d"

/-- Head synthesis at the start of html_diff_render: when the new soup has
no head (soup.head is None; a present head Tag is always truthy), a fresh
empty head is inserted at position 0 of the html element; a missing html
element is an attribute error (none). -/
def ensureHead (soup : Node) : Option Node :=
  match findTagN "head" soup with
  | some _ => some soup
  | none =>
    match findTagN "html" soup with
    | none => none
    | some _ => some (insertFirstChildN "html" (.element "head" [] .nil) soup)

/-- Modelled from the spec: the serialize-and-reparse round trip of the
document assembler (prettify with no formatter, then a fresh parse).  The
string splicing it resolves is already represented structurally here (see
rebuildAux), so the round trip is the identity on the tree; the
whitespace prettify inserts is not modelled. -/
def reparse (soup : Node) : Node :=
  soup

/-- The full pipeline html_diff_render, over already parsed documents
(parsing and final serialization belong to the external parser): comment
removal on both trees, head synthesis on the new tree, undiffable-content
extraction on both trees, body diff and replacement, title-diff metadata,
old-head snapshot template, fixed styling, reparse, merge of the
replacement tables (dict update; the old label entries take precedence,
the key sets are disjoint) and undiffable-content reinsertion.  A missing
body or html element in the new tree, or a KeyError during reinsertion,
aborts with none. -/
def html_diff_render (a_text b_text : Node) : Option Node := do
  let soup_old := removeCommentsN a_text
  let soup_new0 := removeCommentsN b_text
  let soup_new1 ← ensureHead soup_new0
  let rOld := remove_undiffable_content soup_old "old"
  let soup_old2 := rOld.1
  let replacements_old := rOld.2
  let rNew := remove_undiffable_content soup_new1 "new"
  let soup_new2 := rNew.1
  let replacements_new := rNew.2
  let _ ← findTagN "body" soup_new2
  let diffed := diff_elements (findTagN "body" soup_old2) (findTagN "body" soup_new2)
  let soup_new3 := replaceFirstN "body" diffed soup_new2
  let title_meta :=
    Node.element "meta" [("content", diff_title soup_old2 soup_new3), ("name", "wm-diff-title")] .nil
  let soup_new4 ← appendToFirstN "head" title_meta soup_new3
  let old_head_contents :=
    match findTagN "head" soup_old2 with
    | some h => if truthyN h then childrenN h else .nil
    | none => .nil
  let old_head := Node.element "template" [("id", "wm-diff-old-head")] old_head_contents
  let soup_new5 ← appendToFirstN "head" old_head soup_new4
  let change_styles :=
    Node.element "style" [("type", "text/css"), ("id", "wm-diff-style")]
      (.cons (.text wmDiffCss) .nil)
  let soup_new6 ← appendToFirstN "head" change_styles soup_new5
  let soup_new7 := reparse soup_new6
  let merged := replacements_old ++ replacements_new
  add_undiffable_content soup_new7 merged

/-- Attribute list with one key removed; used to compare attribute lists
up to the class attribute. -/
def eraseK (a : List (String × String)) (k : String) : List (String × String) :=
  a.filter (fun p => p.1 != k)

mutual

/-- Detects, along the traversal order of the reinsertion pass, a
placeholder element whose id is not a key of the replacement table (the
content of found placeholders is not rescanned, like the reinsertion
itself). -/
def missingIdN (tbl : List (String × Node)) : Node → Bool
  | .element _ a cs =>
    match lookupA a "wm-diff-replacement" with
    | some rid => (tblLookup tbl rid).isNone
    | none => missingIdL tbl cs
  | _ => false

def missingIdL (tbl : List (String × Node)) : NodeList → Bool
  | .nil => false
  | .cons n ns => missingIdN tbl n || missingIdL tbl ns

end

mutual

/-- Protected elements of a tree in document order (pre-order; protected
elements of a parsed tree contain only text, so the traversal does not
descend into them). -/
def protectedListN : Node → List Node
  | .element t a cs =>
    if isProtectedTag t then [.element t a cs] else protectedListL cs
  | _ => []

def protectedListL : NodeList → List Node
  | .nil => []
  | .cons n ns => protectedListN n ++ protectedListL ns

end

mutual

/-- Elements carrying the reserved placeholder attribute, in document
order, without descending into them. -/
def phListN : Node → List Node
  | .element t a cs =>
    if (lookupA a "wm-diff-replacement").isSome then [.element t a cs] else phListL cs
  | _ => []

def phListL : NodeList → List Node
  | .nil => []
  | .cons n ns => phListN n ++ phListL ns

end

/-- Document with the standard parser shape: an html root holding exactly
a head and a body. -/
def mkDoc (ha : List (String × String)) (hs : List Node)
    (ba : List (String × String)) (bs : List Node) : Node :=
  .element "html" []
    (.cons (.element "head" ha (NodeList.ofL hs))
      (.cons (.element "body" ba (NodeList.ofL bs)) .nil))

/-- Title element with the given text. -/
def titleEl (t : String) : Node :=
  .element "title" [] (.cons (.text t) .nil)

/-- C5.  For every pair of body fragments where either fragment is absent
(None), the body diff operation returns the empty string and no diff is
attempted. -/
theorem diff_elements_absent_empty (x : Option Node) :
    diff_elements none x = Node.text "" ∧ diff_elements x none = Node.text "" := by
  constructor
  · rfl
  · cases x <;> rfl

/-- C10 counterexample.  An old body element that exists but has no child
nodes, diffed against a non-empty new body, does not return the empty
string: the result is the new body element whose content is the insertion
of the new text (a present bs4 Tag is truthy even when empty, so the
absent-fragment branch is not taken). -/
theorem diff_elements_empty_body_cex :
    diff_elements (some (.element "body" [] .nil))
        (some (.element "body" [] (.cons (.text "hi") .nil)))
      = Node.element "body" []
          (.cons (.element "ins" [] (.cons (.text "hi") .nil)) .nil)
    ∧ diff_elements (some (.element "body" [] .nil))
        (some (.element "body" [] (.cons (.text "hi") .nil)))
      ≠ Node.text "" := by
  constructor
  · rfl
  · decide

/-- C10 amended.  The body diff returns the empty string only when a
fragment is absent (None); a present body element is truthy even with no
children, so the pair is diffed normally: the result is the new element
(same tag and attributes), emptied and refilled with the body diff of the
children, never the empty string. -/
theorem diff_elements_present_elements (ot : String) (oa : List (String × String))
    (ocs : NodeList) (nt : String) (na : List (String × String)) (ncs : NodeList) :
    diff_elements (some (.element ot oa ocs)) (some (.element nt na ncs))
        = Node.element nt na (NodeList.ofL (htmldiff ocs ncs))
      ∧ diff_elements (some (.element ot oa ocs)) (some (.element nt na ncs))
        ≠ Node.text "" := by
  constructor
  · rfl
  · simp [diff_elements, truthyN]

/-- C1 counterexample.  A diffed tree holding a placeholder element whose
id (ghost) is not a key of the (empty) placeholder table: the reinsertion
operation raises KeyError (none) instead of leaving the placeholder
unchanged and completing. -/
theorem add_undiffable_missing_id_cex :
    add_undiffable_content
        (Node.element "html" []
          (.cons (.element "body" []
            (.cons (placeholderFor "script" "ghost") .nil)) .nil))
        [] = none := by
  rfl

mutual

/-- Missing placeholder id forces the reinsertion of a node to fail. -/
theorem missingId_aucNode_none (tbl : List (String × Node)) (n : Node)
    (h : missingIdN tbl n = true) : aucNode tbl n = none := by
  cases n with
  | element t a cs =>
    simp only [missingIdN] at h
    simp only [aucNode]
    cases hA : lookupA a "wm-diff-replacement" with
    | some rid =>
      simp only [hA] at h
      cases hT : tblLookup tbl rid with
      | some repl => simp [hT] at h
      | none => simp [hT]
    | none =>
      simp only [hA] at h
      rw [missingId_aucList_none tbl cs h]
  | text s => simp [missingIdN] at h
  | comment s => simp [missingIdN] at h

/-- Missing placeholder id forces the reinsertion of a child list to
fail. -/
theorem missingId_aucList_none (tbl : List (String × Node)) (ns : NodeList)
    (h : missingIdL tbl ns = true) : aucList tbl ns = none := by
  cases ns with
  | nil => simp [missingIdL] at h
  | cons n ns =>
    simp only [missingIdL] at h
    simp only [aucList]
    rcases Bool.or_eq_true_iff.mp h with h1 | h2
    · rw [missingId_aucNode_none tbl n h1]
    · cases hN : aucNode tbl n with
      | none => rfl
      | some n2 => rw [missingId_aucList_none tbl ns h2]

end

/-- C1 amended.  When reinsertion encounters (along its traversal) a
placeholder element whose id is not a key of the placeholder table, the
operation raises a KeyError and produces no result, rather than leaving
the placeholder unchanged. -/
theorem add_undiffable_missing_id (tbl : List (String × Node)) (soup : Node)
    (h : missingIdN tbl soup = true) :
    add_undiffable_content soup tbl = none :=
  missingId_aucNode_none tbl soup h

/-- Witness for C1 amended at a concrete tree and table. -/
theorem add_undiffable_missing_id_witness :
    add_undiffable_content
        (Node.element "div" []
          (.cons (.element "span" [("wm-diff-replacement", "new-7")] .nil) .nil))
        [("new-0", Node.element "script" [] .nil)] = none :=
  add_undiffable_missing_id _ _ (by decide)

/-- Setting a key always makes it the looked-up value. -/
theorem lookupA_setA (a : List (String × String)) (k v : String) :
    lookupA (setA a k v) k = some v := by
  induction a with
  | nil => simp [setA, lookupA]
  | cons p rest ih =>
    obtain ⟨k2, v2⟩ := p
    by_cases h : k2 = k
    · simp [setA, h, lookupA]
    · simp [setA, h, lookupA, ih]

/-- Setting a key changes no other key: the attribute lists with that key
erased agree. -/
theorem eraseK_setA (a : List (String × String)) (k v : String) :
    eraseK (setA a k v) k = eraseK a k := by
  induction a with
  | nil => simp [setA, eraseK, List.filter_cons]
  | cons p rest ih =>
    obtain ⟨k2, v2⟩ := p
    by_cases h : k2 = k
    · subst h
      simp [setA, eraseK, List.filter_cons]
    · simp only [setA, eraseK, List.filter_cons, if_neg h] at *
      simp only [bne, BEq.beq] at *
      simp [h, ih]

/-- The scripts and styles of the C3 counterexample. -/
def c3ScriptOld : Node :=
  .element "script" [("class", "orig"), ("src", "x.js")] (.cons (.text "f();") .nil)

/-- Old document of the first C3 counterexample: one script with a class
attribute in the head. -/
def c3OldDoc : Node := mkDoc [] [c3ScriptOld] [] []

/-- New document of the first C3 counterexample: empty. -/
def c3NewDoc : Node := mkDoc [] [] [] []

/-- Old document of the second C3 counterexample: no body element at all
(as produced by parsing an empty or head-only input). -/
def c3OldNoBody : Node := .element "html" [] (.cons (.element "head" [] .nil) .nil)

/-- New document of the second C3 counterexample: one script in the
body. -/
def c3NewWithScript : Node :=
  mkDoc [] [] [] [.element "script" [] (.cons (.text "alert(1);") .nil)]

/-- C3 counterexample.  First pair: the old script is present in the
output exactly once (inert), but its attributes are not identical to the
input element: its class attribute (orig) has been overwritten with the
role class, so no script with the original attribute list occurs.  Second
pair: the old document has no body element, so the body diff is the empty
string and the new script, present in the input, occurs zero times in the
output rather than exactly once in its active role. -/
theorem round_trip_preservation_cex :
    (html_diff_render c3OldDoc c3NewDoc).map (countN (fun n => tagN n == "script")) = some 1
    ∧ (html_diff_render c3OldDoc c3NewDoc).map
        (countN (fun n => tagN n == "script"
          && attrsN n == [("class", "orig"), ("src", "x.js")])) = some 0
    ∧ (html_diff_render c3OldNoBody c3NewWithScript).map
        (countN (fun n => tagN n == "script")) = some 0 := by
  refine ⟨by decide, by decide, by decide⟩

/-- What reinsertion produces for one found placeholder whose recorded
original is the element with tag ot, attributes oa and children ocs: the
original child content is restored identically, the attributes are
identical except the class attribute, which is overwritten with the role
class, and an old-role element is additionally wrapped in the inert
template container. -/
def restoredSpec (rid ot : String) (oa : List (String × String)) (ocs : NodeList)
    (r : Node) : Prop :=
  (strStarts rid "old-" = true →
    tagN r = "template" ∧ attrsN r = [("class", "wm-diff-deleted-inert")] ∧
    ∃ core, childrenN r = .cons core .nil ∧ tagN core = ot ∧ childrenN core = ocs ∧
      eraseK (attrsN core) "class" = eraseK oa "class" ∧
      lookupA (attrsN core) "class" = some "wm-diff-deleted-active")
  ∧ (strStarts rid "old-" = false →
    tagN r = ot ∧ childrenN r = ocs ∧
      eraseK (attrsN r) "class" = eraseK oa "class" ∧
      lookupA (attrsN r) "class" = some "wm-diff-inserted-active")

/-- C3 amended.  Whenever the reinsertion pass meets a placeholder
element whose id is a key of the table, the recorded original element
replaces it (so it occurs exactly once, in place of its placeholder) with
tag and inner content identical to the recorded element and attributes
identical except the class attribute, which is overwritten with the role
class for its role (deleted-active inside an inert template wrapper for
old ids, inserted-active spliced directly for other ids). -/
theorem auc_restores_placeholder (tbl : List (String × Node)) (pt : String)
    (pa : List (String × String)) (pcs : NodeList) (rid ot : String)
    (oa : List (String × String)) (ocs : NodeList)
    (hattr : lookupA pa "wm-diff-replacement" = some rid)
    (hlook : tblLookup tbl rid = some (.element ot oa ocs)) :
    ∃ r, aucNode tbl (.element pt pa pcs) = some r ∧ restoredSpec rid ot oa ocs r := by
  simp only [aucNode, hattr, hlook, truthyN, if_true]
  by_cases hs : strStarts rid "old-" = true
  · refine ⟨_, by rw [if_pos hs], ?_, ?_⟩
    · intro _
      refine ⟨rfl, rfl, .element ot (setA oa "class" "wm-diff-deleted-active") ocs,
        rfl, rfl, rfl, eraseK_setA oa "class" _, lookupA_setA oa "class" _⟩
    · intro hf; rw [hs] at hf; exact absurd hf (by simp)
  · have hs2 : strStarts rid "old-" = false := by
      cases h2 : strStarts rid "old-" with
      | true => exact absurd h2 hs
      | false => rfl
    refine ⟨_, by rw [if_neg hs], ?_, ?_⟩
    · intro ht; exact absurd ht hs
    · intro _
      exact ⟨rfl, rfl, eraseK_setA oa "class" _, lookupA_setA oa "class" _⟩

/-- Witness for C3 amended at a concrete placeholder and table. -/
theorem auc_restores_placeholder_witness :
    ∃ r, aucNode [("old-0", Node.element "script" [("class", "orig")] (.cons (.text "x") .nil))]
        (Node.element "script" [("wm-diff-replacement", "old-0")]
          (.cons (.text "$[old-0]$") .nil)) = some r
      ∧ restoredSpec "old-0" "script" [("class", "orig")] (.cons (.text "x") .nil) r :=
  auc_restores_placeholder _ _ _ _ _ _ _ _ (by decide) (by decide)

/-- Old document of the C7 literal case: title Paragraph. -/
def c7OldDoc : Node := mkDoc [] [titleEl "Paragraph"] [] []

/-- New document of the C7 literal case: title Header. -/
def c7NewDoc : Node := mkDoc [] [titleEl "Header"] [] []

/-- C7.  Title diff rendering: an equal operation renders as its
HTML-escaped text alone, a delete operation as its escaped text wrapped in
the literal deletion marker, an insert operation as its escaped text
wrapped in the literal insertion marker, so escaping applies to the raw
text only and never to the markers; and the title diff of Paragraph
against Header renders exactly the deletion of Paragraph followed by the
insertion of Header. -/
theorem title_diff_rendering :
    (∀ s : String, html_for_dmp_operation (0, s) = htmlEscape s)
    ∧ (∀ s : String, html_for_dmp_operation (-1, s) = "<del>" ++ htmlEscape s ++ "</del>")
    ∧ (∀ s : String, html_for_dmp_operation (1, s) = "<ins>" ++ htmlEscape s ++ "</ins>")
    ∧ diff_title c7OldDoc c7NewDoc = "<del>Paragraph</del><ins>Header</ins>" := by
  refine ⟨fun s => by simp [html_for_dmp_operation],
    fun s => by simp [html_for_dmp_operation],
    fun s => by simp [html_for_dmp_operation],
    by decide⟩

mutual

/-- The extraction table of a node lists exactly the protected elements
in document order, each keyed by the label, a dash and its running index;
the returned counter advances by their number. -/
theorem ruc_table_node (lbl : String) (n : Node) (k : Nat) :
    (rucNode lbl n k).2.2
        = ((protectedListN n).enumFrom k).map
            (fun p => (lbl ++ "-" ++ toString p.1, p.2))
      ∧ (rucNode lbl n k).2.1 = k + (protectedListN n).length := by
  cases n with
  | element t a cs =>
    by_cases hp : isProtectedTag t = true
    · simp [rucNode, hp, protectedListN, List.enumFrom]
    · have hp2 : isProtectedTag t = false := by
        cases h2 : isProtectedTag t with
        | true => exact absurd h2 hp
        | false => rfl
      simp only [rucNode, hp2, Bool.false_eq_true, if_false, protectedListN]
      exact ruc_table_list lbl cs k
  | text s => simp [rucNode, protectedListN]
  | comment s => simp [rucNode, protectedListN]

/-- List version of ruc_table_node. -/
theorem ruc_table_list (lbl : String) (ns : NodeList) (k : Nat) :
    (rucList lbl ns k).2.2
        = ((protectedListL ns).enumFrom k).map
            (fun p => (lbl ++ "-" ++ toString p.1, p.2))
      ∧ (rucList lbl ns k).2.1 = k + (protectedListL ns).length := by
  cases ns with
  | nil => simp [rucList, protectedListL]
  | cons n ns =>
    have h1 := ruc_table_node lbl n k
    have h2 := ruc_table_list lbl ns (rucNode lbl n k).2.1
    simp only [rucList, protectedListL]
    constructor
    · rw [h1.1, h2.1, h1.2, List.enumFrom_append, List.map_append]
    · rw [h2.2, h1.2, List.length_append]
      omega

end

mutual

/-- In a tree free of the reserved attribute, the placeholder elements of
the extracted tree are exactly the table entries rendered as placeholder
elements: same tag as the recorded original, the reserved attribute set
to the id, and the single literal text child. -/
theorem ruc_ph_node (lbl : String) (n : Node) (k : Nat)
    (h : countN hasReservedB n = 0) :
    phListN (rucNode lbl n k).1
      = ((rucNode lbl n k).2.2).map
          (fun p => Node.element (tagN p.2) [("wm-diff-replacement", p.1)]
            (.cons (.text ("$[" ++ p.1 ++ "]$")) .nil)) := by
  cases n with
  | element t a cs =>
    by_cases hp : isProtectedTag t = true
    · simp [rucNode, hp, placeholderFor, phListN, lookupA, tagN]
    · have hp2 : isProtectedTag t = false := by
        cases h2 : isProtectedTag t with
        | true => exact absurd h2 hp
        | false => rfl
      have hr : hasReservedB (.element t a cs) = false := by
        rw [countN] at h
        cases h3 : hasReservedB (.element t a cs) with
        | true => rw [h3] at h; simp at h
        | false => rfl
      have hl : (lookupA a "wm-diff-replacement").isSome = false := by
        rw [hasReservedB] at hr; exact hr
      have hcs : countL hasReservedB cs = 0 := by
        rw [countN] at h; omega
      simp only [rucNode, hp2, Bool.false_eq_true, if_false, phListN, hl]
      exact ruc_ph_list lbl cs k hcs
  | text s => simp [rucNode, phListN]
  | comment s => simp [rucNode, phListN]

/-- List version of ruc_ph_node. -/
theorem ruc_ph_list (lbl : String) (ns : NodeList) (k : Nat)
    (h : countL hasReservedB ns = 0) :
    phListL (rucList lbl ns k).1
      = ((rucList lbl ns k).2.2).map
          (fun p => Node.element (tagN p.2) [("wm-diff-replacement", p.1)]
            (.cons (.text ("$[" ++ p.1 ++ "]$")) .nil)) := by
  cases ns with
  | nil => simp [rucList, phListL]
  | cons n ns =>
    have hn : countN hasReservedB n = 0 := by rw [countL] at h; omega
    have hns : countL hasReservedB ns = 0 := by rw [countL] at h; omega
    simp only [rucList, phListL, List.map_append]
    rw [ruc_ph_node lbl n k hn, ruc_ph_list lbl ns (rucNode lbl n k).2.1 hns]

end

/-- C8.  Extraction characterization: on a tree free of the reserved
attribute, the extraction pass visits the protected elements in document
order and, for the element at index i, forms the id from the label, a
dash and i, records the id mapped to the original element (the table is
exactly the enumeration of the protected elements in document order), and
the placeholder elements of the resulting tree are exactly, in order, an
element of the same tag as each recorded original whose only attribute is
the reserved attribute set to the id and whose only content is the
literal text formed from the id. -/
theorem extraction_characterization (lbl : String) (soup : Node)
    (h : countN hasReservedB soup = 0) :
    (remove_undiffable_content soup lbl).2
        = (protectedListN soup).enum.map
            (fun p => (lbl ++ "-" ++ toString p.1, p.2))
      ∧ phListN (remove_undiffable_content soup lbl).1
        = (remove_undiffable_content soup lbl).2.map
            (fun p => Node.element (tagN p.2) [("wm-diff-replacement", p.1)]
              (.cons (.text ("$[" ++ p.1 ++ "]$")) .nil)) := by
  constructor
  · rw [remove_undiffable_content]
    simp only [List.enum]
    exact (ruc_table_node lbl soup 0).1
  · rw [remove_undiffable_content]
    exact ruc_ph_node lbl soup 0 h

/-- Witness for C8 at a concrete tree with two protected elements. -/
theorem extraction_characterization_witness :
    (remove_undiffable_content
        (mkDoc [] [.element "script" [("src", "a.js")] .nil]
          [] [.element "style" [] (.cons (.text "b-rule") .nil)]) "old").2
      = (protectedListN
          (mkDoc [] [.element "script" [("src", "a.js")] .nil]
            [] [.element "style" [] (.cons (.text "b-rule") .nil)])).enum.map
          (fun p => ("old" ++ "-" ++ toString p.1, p.2)) :=
  (extraction_characterization "old" _ (by decide)).1

/-- Word splitting yields only word items. -/
theorem splitWordsAux_no_textI (cs : List Char) (acc : List Char) (s : String) :
    Item.textI s ∉ splitWordsAux acc cs := by
  induction cs generalizing acc with
  | nil =>
    cases h : acc.isEmpty <;> simp [splitWordsAux, h]
  | cons c rest ih =>
    simp only [splitWordsAux]
    cases hw : c.isWhitespace
    · simp only [Bool.false_eq_true, if_false]
      exact ih (c :: acc)
    · simp only [if_true]
      cases ha : acc.isEmpty
      · simp only [Bool.false_eq_true, if_false, List.mem_cons]
        intro h
        rcases h with h | h
        · exact absurd h (by simp)
        · exact ih [] h
      · simp only [if_true]
        exact ih []

mutual

/-- Flattening yields no rendered text item (only tags, words and
URLs). -/
theorem flattenN_no_textI (n : Node) (s : String) : Item.textI s ∉ flattenN n := by
  cases n with
  | element t a cs =>
    simp only [flattenN, List.mem_cons, List.mem_append]
    intro h
    rcases h with h | h
    · exact absurd h (by simp)
    rcases h with (h | h) | h
    · exact flattenL_no_textI cs s h
    · by_cases ht : t = "a"
      · simp only [ht, if_true] at h
        cases hl : lookupA a "href" with
        | none => rw [hl] at h; simp at h
        | some u =>
          rw [hl] at h
          by_cases hu : u = ""
          · simp [hu] at h
          · simp [hu] at h
      · simp [ht] at h
    · exact absurd h (by simp)
  | text str => exact splitWordsAux_no_textI _ _ _
  | comment str => simp [flattenN]

/-- List version of flattenN_no_textI. -/
theorem flattenL_no_textI (ns : NodeList) (s : String) : Item.textI s ∉ flattenL ns := by
  cases ns with
  | nil => simp [flattenL]
  | cons n ns =>
    simp only [flattenL, List.mem_append]
    intro h
    rcases h with h | h
    · exact flattenN_no_textI n s h
    · exact flattenL_no_textI ns s h

end

/-- Markup-context cleanliness of a token: the pre_tags and post_tags
contain no rendered text item. -/
def tokCleanP (t : Tok) : Prop :=
  (∀ s, Item.textI s ∉ t.pre_tags) ∧ (∀ s, Item.textI s ∉ t.post_tags)

/-- Grouping a stream without rendered text items yields tokens with
clean markup context and a clean leftover. -/
theorem fixup_chunks_clean (items : List Item) (buf : List Item) (acc : List Tok)
    (hi : ∀ s, Item.textI s ∉ items) (hb : ∀ s, Item.textI s ∉ buf)
    (ha : ∀ t ∈ acc, tokCleanP t) :
    (∀ t ∈ (fixup_chunks items buf acc).1, tokCleanP t)
      ∧ (∀ s, Item.textI s ∉ (fixup_chunks items buf acc).2) := by
  induction items generalizing buf acc with
  | nil =>
    cases acc with
    | nil =>
      simp only [fixup_chunks]
      exact ⟨by simp, hb⟩
    | cons last acc2 =>
      simp only [fixup_chunks]
      constructor
      · intro t ht
        rw [List.mem_reverse] at ht
        rcases List.mem_cons.mp ht with h | h
        · subst h
          have hl := ha last (by simp)
          refine ⟨hl.1, ?_⟩
          intro s
          simp only [List.mem_append]
          intro hmem
          rcases hmem with h2 | h2
          · exact hl.2 s h2
          · exact hb s h2
        · exact ha t (by simp [h])
      · simp
  | cons i rest ih =>
    cases i with
    | wordI w ws =>
      simp only [fixup_chunks]
      refine ih [] (⟨w, .word, buf, [], ws, false⟩ :: acc)
        (fun s hs => hi s (by simp [hs])) (by simp) ?_
      intro t ht
      rcases List.mem_cons.mp ht with h | h
      · subst h; exact ⟨hb, by simp⟩
      · exact ha t h
    | hrefI u =>
      simp only [fixup_chunks]
      refine ih [] (⟨u, .href, buf, [], true, false⟩ :: acc)
        (fun s hs => hi s (by simp [hs])) (by simp) ?_
      intro t ht
      rcases List.mem_cons.mp ht with h | h
      · subst h; exact ⟨hb, by simp⟩
      · exact ha t h
    | openT t2 a2 =>
      simp only [fixup_chunks]
      refine ih (buf ++ [Item.openT t2 a2]) acc (fun s hs => hi s (by simp [hs])) ?_ ha
      intro s
      simp only [List.mem_append]
      intro h
      rcases h with h | h
      · exact hb s h
      · simp at h
    | closeT t2 =>
      simp only [fixup_chunks]
      cases buf with
      | nil =>
        cases acc with
        | nil =>
          refine ih [Item.closeT t2] [] (fun s hs => hi s (by simp [hs])) (by simp) (by simp)
        | cons last acc2 =>
          refine ih [] ({ last with post_tags := last.post_tags ++ [Item.closeT t2] } :: acc2)
            (fun s hs => hi s (by simp [hs])) (by simp) ?_
          intro t ht
          rcases List.mem_cons.mp ht with h | h
          · subst h
            have hl := ha last (by simp)
            refine ⟨hl.1, ?_⟩
            intro s
            simp only [List.mem_append]
            intro hmem
            rcases hmem with h2 | h2
            · exact hl.2 s h2
            · simp at h2
          · exact ha t (by simp [h])
      | cons b bs =>
        refine ih ((b :: bs) ++ [Item.closeT t2]) acc (fun s hs => hi s (by simp [hs])) ?_ ha
        intro s
        simp only [List.mem_append]
        intro h
        rcases h with h | h
        · exact hb s h
        · simp at h
    | textI s2 =>
      exact absurd (by simp : Item.textI s2 ∈ Item.textI s2 :: rest) (hi s2)

/-- The tokens of the token sequences are textI-clean and the leftover of
tokenize is textI-free. -/
theorem tokenize_clean (ns : NodeList) :
    (∀ t ∈ (tokenize ns).1, tokCleanP t) ∧ (∀ s, Item.textI s ∉ (tokenize ns).2) := by
  rw [tokenize]
  exact fixup_chunks_clean (flattenL ns) [] [] (fun s => flattenL_no_textI ns s)
    (by simp) (by simp)

/-- Every operation of the token diff carries a token of one of the two
input sequences. -/
theorem htmldiff_tokens_mem (old new : List Tok) :
    ∀ op ∈ htmldiff_tokens old new, dopTok op ∈ old ∨ dopTok op ∈ new := by
  intro op hop
  rw [htmldiff_tokens] at hop
  simp only [List.mem_append] at hop
  rcases hop with ((h | h) | h) | h
  · rcases List.mem_map.mp h with ⟨t, ht, rfl⟩
    exact Or.inr (List.take_subset _ _ ht)
  · rcases List.mem_map.mp h with ⟨t, ht, rfl⟩
    exact Or.inl (List.drop_subset _ _ (List.take_subset _ _ ht))
  · rcases List.mem_map.mp h with ⟨t, ht, rfl⟩
    exact Or.inr (List.drop_subset _ _ (List.take_subset _ _ ht))
  · rcases List.mem_map.mp h with ⟨t, ht, rfl⟩
    exact Or.inr (List.drop_subset _ _ (List.drop_subset _ _ ht))

/-- Every token of a grouped run is the token of one of the
operations. -/
theorem groupRuns_mem (ops : List DOp) :
    ∀ r ∈ groupRuns ops, ∀ t ∈ r.2, ∃ op ∈ ops, dopTok op = t := by
  induction ops with
  | nil => simp [groupRuns]
  | cons op rest ih =>
    intro r hr t ht
    rw [groupRuns] at hr
    cases hg : groupRuns rest with
    | nil =>
      rw [hg] at hr
      rcases List.mem_cons.mp hr with h | h
      · subst h
        simp only [List.mem_singleton] at ht
        subst ht
        exact ⟨op, by simp⟩
      · simp at h
    | cons hd tl =>
      rw [hg] at hr
      obtain ⟨k, ts⟩ := hd
      dsimp only at hr
      by_cases hk : dopKind op = k
      · rw [if_pos hk] at hr
        rcases List.mem_cons.mp hr with h | h
        · subst h
          rcases List.mem_cons.mp ht with h2 | h2
          · subst h2; exact ⟨op, by simp⟩
          · rcases ih (k, ts) (by simp [hg]) t h2 with ⟨op2, hop2, rfl⟩
            exact ⟨op2, by simp [hop2]⟩
        · rcases ih r (by simp [hg, h]) t ht with ⟨op2, hop2, rfl⟩
          exact ⟨op2, by simp [hop2]⟩
      · rw [if_neg hk] at hr
        rcases List.mem_cons.mp hr with h | h
        · subst h
          simp only [List.mem_singleton] at ht
          subst ht
          exact ⟨op, by simp⟩
        · rcases ih r (by rw [hg]; exact h) t ht with ⟨op2, hop2, rfl⟩
          exact ⟨op2, by simp [hop2]⟩

/-- Rendered text items of the stack unwind come from the collected
accumulators. -/
theorem suUnwind_textI (st : List SFrame) (acc : List Item) (s : String) :
    (Item.textI s ∈ (suUnwind st acc).1 → False)
      ∧ (Item.textI s ∈ (suUnwind st acc).2 →
          Item.textI s ∈ acc ∨ ∃ f ∈ st, Item.textI s ∈ f.accS) := by
  induction st generalizing acc with
  | nil => simp [suUnwind]
  | cons f rest ih =>
    simp only [suUnwind]
    constructor
    · intro h
      rcases List.mem_append.mp h with h | h
      · exact (ih (f.accS ++ acc)).1 h
      · simp at h
    · intro h
      rcases (ih (f.accS ++ acc)).2 h with h2 | h2
      · rcases List.mem_append.mp h2 with h3 | h3
        · exact Or.inr ⟨f, by simp, h3⟩
        · exact Or.inl h3
      · rcases h2 with ⟨g, hg, hmem⟩
        exact Or.inr ⟨g, by simp [hg], hmem⟩

/-- Rendered text items of the unbalanced-tag scan come from the scanned
items or the threaded state. -/
theorem suAux_textI (items : List Item) (acc : List Item) (st : List SFrame)
    (ucs : List Item) (s : String) :
    (Item.textI s ∈ (suAux items acc st ucs).1
        ∨ Item.textI s ∈ (suAux items acc st ucs).2.1
        ∨ Item.textI s ∈ (suAux items acc st ucs).2.2) →
      Item.textI s ∈ items ∨ Item.textI s ∈ acc
        ∨ (∃ f ∈ st, Item.textI s ∈ f.accS) ∨ Item.textI s ∈ ucs := by
  induction items generalizing acc st ucs with
  | nil =>
    intro h
    rw [suAux] at h
    rcases h with h | h | h
    · exact ((suUnwind_textI st acc s).1 h).elim
    · rcases (suUnwind_textI st acc s).2 h with h2 | h2
      · exact Or.inr (Or.inl h2)
      · exact Or.inr (Or.inr (Or.inl h2))
    · exact Or.inr (Or.inr (Or.inr h))
  | cons i rest ih =>
    intro h
    cases i with
    | openT t2 a2 =>
      rw [suAux] at h
      rcases ih [] (⟨t2, a2, acc⟩ :: st) ucs h with h2 | h2 | h2 | h2
      · exact Or.inl (by simp [h2])
      · simp at h2
      · rcases h2 with ⟨f, hf, hmem⟩
        rcases List.mem_cons.mp hf with h3 | h3
        · subst h3; exact Or.inr (Or.inl hmem)
        · exact Or.inr (Or.inr (Or.inl ⟨f, h3, hmem⟩))
      · exact Or.inr (Or.inr (Or.inr h2))
    | closeT t2 =>
      cases st with
      | nil =>
        rw [suAux] at h
        rcases ih acc [] (ucs ++ [Item.closeT t2]) h with h2 | h2 | h2 | h2
        · exact Or.inl (by simp [h2])
        · exact Or.inr (Or.inl h2)
        · simp at h2
        · rcases List.mem_append.mp h2 with h3 | h3
          · exact Or.inr (Or.inr (Or.inr h3))
          · simp at h3
      | cons f st2 =>
        rw [suAux] at h
        by_cases hf : f.tagS = t2
        · rw [if_pos hf] at h
          rcases ih (f.accS ++ [Item.openT f.tagS f.attrsS] ++ acc ++ [Item.closeT t2]) st2 ucs h
            with h2 | h2 | h2 | h2
          · exact Or.inl (by simp [h2])
          · simp only [List.mem_append] at h2
            rcases h2 with ((h3 | h3) | h3) | h3
            · exact Or.inr (Or.inr (Or.inl ⟨f, by simp, h3⟩))
            · simp at h3
            · exact Or.inr (Or.inl h3)
            · simp at h3
          · rcases h2 with ⟨g, hg, hmem⟩
            exact Or.inr (Or.inr (Or.inl ⟨g, by simp [hg], hmem⟩))
          · exact Or.inr (Or.inr (Or.inr h2))
        · rw [if_neg hf] at h
          rcases ih acc (f :: st2) (ucs ++ [Item.closeT t2]) h with h2 | h2 | h2 | h2
          · exact Or.inl (by simp [h2])
          · exact Or.inr (Or.inl h2)
          · exact Or.inr (Or.inr (Or.inl h2))
          · rcases List.mem_append.mp h2 with h3 | h3
            · exact Or.inr (Or.inr (Or.inr h3))
            · simp at h3
    | wordI w ws =>
      rw [suAux] at h
      rcases ih (acc ++ [Item.wordI w ws]) st ucs h with h2 | h2 | h2 | h2
      · exact Or.inl (by simp [h2])
      · rcases List.mem_append.mp h2 with h3 | h3
        · exact Or.inr (Or.inl h3)
        · simp at h3
      · exact Or.inr (Or.inr (Or.inl h2))
      · exact Or.inr (Or.inr (Or.inr h2))
    | hrefI u =>
      rw [suAux] at h
      rcases ih (acc ++ [Item.hrefI u]) st ucs h with h2 | h2 | h2 | h2
      · exact Or.inl (by simp [h2])
      · rcases List.mem_append.mp h2 with h3 | h3
        · exact Or.inr (Or.inl h3)
        · simp at h3
      · exact Or.inr (Or.inr (Or.inl h2))
      · exact Or.inr (Or.inr (Or.inr h2))
    | textI s2 =>
      rw [suAux] at h
      rcases ih (acc ++ [Item.textI s2]) st ucs h with h2 | h2 | h2 | h2
      · exact Or.inl (by simp [h2])
      · rcases List.mem_append.mp h2 with h3 | h3
        · exact Or.inr (Or.inl h3)
        · have h4 := List.mem_singleton.mp h3
          injection h4 with h5
          subst h5
          exact Or.inl (by simp)
      · exact Or.inr (Or.inr (Or.inl h2))
      · exact Or.inr (Or.inr (Or.inr h2))

/-- Rendered text items of the split components come from the input
chunk. -/
theorem split_unbalanced_textI (items : List Item) (s : String)
    (h : Item.textI s ∈ (split_unbalanced items).1
        ∨ Item.textI s ∈ (split_unbalanced items).2.1
        ∨ Item.textI s ∈ (split_unbalanced items).2.2) :
    Item.textI s ∈ items := by
  rw [split_unbalanced] at h
  rcases suAux_textI items [] [] [] s h with h2 | h2 | h2 | h2
  · exact h2
  · simp at h2
  · simp at h2
  · simp at h2

/-- Customization preserves the markup-context cleanliness of a token. -/
theorem customize_token_clean (t : Tok) (h : tokCleanP t) :
    tokCleanP (customize_token t) := by
  rw [customize_token]
  cases t.kind with
  | word => exact h
  | href => exact ⟨h.1, h.2⟩

/-- Rendered text items of one rendered run are the rendered text of one
of its tokens, provided the tokens carry clean markup context. -/
theorem renderRun_textI (k : RKind) (ts : List Tok) (s : String)
    (hc : ∀ t ∈ ts, tokCleanP t)
    (h : Item.textI s ∈ renderRun (k, ts)) :
    ∃ t ∈ ts, s = t.htmlWs := by
  have hflat : Item.textI s ∈ ts.flatMap tokItems → ∃ t ∈ ts, s = t.htmlWs := by
    intro hm
    rcases List.mem_flatMap.mp hm with ⟨t, ht, hmem⟩
    rw [tokItems] at hmem
    simp only [List.mem_append, List.mem_singleton] at hmem
    rcases hmem with (h2 | h2) | h2
    · exact absurd h2 ((hc t ht).1 s)
    · injection h2 with h3; exact ⟨t, ht, h3⟩
    · exact absurd h2 ((hc t ht).2 s)
  cases k with
  | eqR => exact hflat h
  | delR =>
    rw [renderRun, wrapDel] at h
    simp only [List.mem_append, List.mem_cons, List.mem_singleton] at h
    rcases h with (h2 | h2) | h2
    · exact absurd h2 (by simp)
    · exact hflat (split_unbalanced_textI _ s (Or.inr (Or.inl h2)))
    · exact absurd h2 (by simp)
  | insR =>
    rw [renderRun, wrapIns] at h
    simp only [List.mem_append, List.mem_cons, List.mem_singleton] at h
    rcases h with (((h2 | h2) | h2) | h2) | h2
    · exact hflat (split_unbalanced_textI _ s (Or.inl h2))
    · exact absurd h2 (by simp)
    · exact hflat (split_unbalanced_textI _ s (Or.inr (Or.inl h2)))
    · exact absurd h2 (by simp)
    · exact hflat (split_unbalanced_textI _ s (Or.inr (Or.inr h2)))

/-- Rendered text items of the rendered operation stream are the rendered
text of one of the operation tokens. -/
theorem renderOps_textI (ops : List DOp) (s : String)
    (hc : ∀ op ∈ ops, tokCleanP (dopTok op))
    (h : Item.textI s ∈ renderOps ops) :
    ∃ op ∈ ops, s = (dopTok op).htmlWs := by
  rw [renderOps] at h
  rcases List.mem_flatMap.mp h with ⟨r, hr, hmem⟩
  obtain ⟨k, ts⟩ := r
  have hclean : ∀ t ∈ ts, tokCleanP t := by
    intro t ht
    rcases groupRuns_mem ops (k, ts) hr t ht with ⟨op, hop, rfl⟩
    exact hc op hop
  rcases renderRun_textI k ts s hclean hmem with ⟨t, ht, rfl⟩
  rcases groupRuns_mem ops (k, ts) hr t ht with ⟨op, hop, rfl⟩
  exact ⟨op, hop, rfl⟩

/-- Every rendered text piece of the body diff stream is the rendering of
one token of the two tokenized inputs after customization. -/
theorem htmldiffStream_textI (old new : NodeList) (s : String)
    (h : Item.textI s ∈ htmldiffStream old new) :
    ∃ t, (t ∈ (tokenize old).1 ∨ t ∈ (tokenize new).1)
      ∧ s = (customize_token t).htmlWs := by
  rw [htmldiffStream] at h
  rcases List.mem_append.mp h with h2 | h2
  · have hc : ∀ op ∈ htmldiff_tokens ((tokenize old).1.map customize_token)
        ((tokenize new).1.map customize_token), tokCleanP (dopTok op) := by
      intro op hop
      rcases htmldiff_tokens_mem _ _ op hop with hm | hm
      · rcases List.mem_map.mp hm with ⟨t, ht, heq⟩
        rw [← heq]
        exact customize_token_clean t ((tokenize_clean old).1 t ht)
      · rcases List.mem_map.mp hm with ⟨t, ht, heq⟩
        rw [← heq]
        exact customize_token_clean t ((tokenize_clean new).1 t ht)
    rcases renderOps_textI _ s hc h2 with ⟨op, hop, rfl⟩
    rcases htmldiff_tokens_mem _ _ op hop with hm | hm
    · rcases List.mem_map.mp hm with ⟨t, ht, heq⟩
      exact ⟨t, Or.inl ht, by rw [heq]⟩
    · rcases List.mem_map.mp hm with ⟨t, ht, heq⟩
      exact ⟨t, Or.inr ht, by rw [heq]⟩
  · exact absurd h2 ((tokenize_clean new).2 s)

/-- Rendered text pieces of an item stream, in order. -/
def textPieces (items : List Item) : List String :=
  items.filterMap (fun i => match i with | Item.textI s => some s | _ => none)

/-- Old fragment of the C6 concrete case: an anchor with one URL. -/
def c6OldFrag : NodeList :=
  .cons (.element "p" [] (.cons (.text "go ")
    (.cons (.element "a" [("href", "http://old.example/x")]
      (.cons (.text "here") .nil)) .nil))) .nil

/-- New fragment of the C6 concrete case: the same anchor with a changed
URL. -/
def c6NewFrag : NodeList :=
  .cons (.element "p" [] (.cons (.text "go ")
    (.cons (.element "a" [("href", "http://new.example/y")]
      (.cons (.text "here") .nil)) .nil))) .nil

/-- C6.  The token customizer wraps every anchor-URL token in the minimal
link token keeping the same comparison value, markup context (pre_tags
and post_tags) and trailing-whitespace flag but rendering as the empty
string; every other token is returned unchanged.  Consequently every
rendered text piece of the body diff is the rendering of a customized
token, a customized anchor-URL token renders as the empty string, and in
the concrete changed-href diff the rendered text pieces contain neither
the old nor the new URL text. -/
theorem link_token_suppression :
    (∀ t : Tok, t.kind = .href →
      customize_token t
          = ⟨t.value, .href, t.pre_tags, t.post_tags, t.trailing_whitespace, true⟩
        ∧ (customize_token t).htmlR = "")
    ∧ (∀ t : Tok, t.kind = .word → customize_token t = t)
    ∧ (∀ (old new : NodeList) (s : String), Item.textI s ∈ htmldiffStream old new →
        ∃ t, (t ∈ (tokenize old).1 ∨ t ∈ (tokenize new).1)
          ∧ s = (customize_token t).htmlWs
          ∧ (t.kind = .href → s = "" ∨ s = " "))
    ∧ textPieces (htmldiffStream c6OldFrag c6NewFrag) = ["go ", "here", " ", " "]
    ∧ "http://old.example/x" ∉ textPieces (htmldiffStream c6OldFrag c6NewFrag)
    ∧ "http://new.example/y" ∉ textPieces (htmldiffStream c6OldFrag c6NewFrag) := by
  refine ⟨?_, ?_, ?_, by decide, by decide, by decide⟩
  · intro t hk
    rw [customize_token, hk]
    exact ⟨rfl, by simp [Tok.htmlR]⟩
  · intro t hk
    rw [customize_token, hk]
  · intro old new s h
    rcases htmldiffStream_textI old new s h with ⟨t, hmem, rfl⟩
    refine ⟨t, hmem, rfl, ?_⟩
    intro hk
    rw [Tok.htmlWs, customize_token, hk]
    simp only [Tok.htmlR]
    cases t.trailing_whitespace
    · exact Or.inl (by simp)
    · exact Or.inr (by simp)

/-- Witness for the implication parts of C6 at a concrete token and
stream. -/
theorem link_token_suppression_witness :
    (customize_token ⟨"u", .href, [], [], false, false⟩
        = ⟨"u", .href, [], [], false, true⟩
      ∧ (customize_token ⟨"u", .href, [], [], false, false⟩).htmlR = "")
    ∧ customize_token ⟨"w", .word, [], [], false, false⟩ = ⟨"w", .word, [], [], false, false⟩
    ∧ (∃ t, (t ∈ (tokenize c6OldFrag).1 ∨ t ∈ (tokenize c6NewFrag).1)
        ∧ "here" = (customize_token t).htmlWs
        ∧ (t.kind = .href → "here" = "" ∨ "here" = " ")) := by
  refine ⟨link_token_suppression.1 ⟨"u", .href, [], [], false, false⟩ rfl,
    link_token_suppression.2.1 ⟨"w", .word, [], [], false, false⟩ rfl,
    link_token_suppression.2.2.1 c6OldFrag c6NewFrag "here" (by decide)⟩

/-- A predicate on nodes is shallow when it depends only on the
constructor, tag name and attribute list, never on the children; all
cleanliness predicates used here are shallow. -/
def shallowP (p : Node → Bool) : Prop :=
  ∀ t a cs cs2, p (.element t a cs) = p (.element t a cs2)

/-- Sum of deep counts over an ordinary node list. -/
def pNodes (p : Node → Bool) (l : List Node) : Nat :=
  (l.map (countN p)).sum

/-- Deep count over a child list equals the sum over the ordinary
list. -/
theorem countL_ofL (p : Node → Bool) (l : List Node) :
    countL p (NodeList.ofL l) = pNodes p l := by
  induction l with
  | nil => simp [NodeList.ofL, countL, pNodes]
  | cons n ns ih => simp [NodeList.ofL, countL, pNodes, ih, List.map_cons, List.sum_cons]

/-- Deep count over an appended child list. -/
theorem countL_app (p : Node → Bool) (l m : NodeList) :
    countL p (NodeList.app l m) = countL p l + countL p m := by
  cases l with
  | nil => simp [NodeList.app, countL]
  | cons n ns => simp [NodeList.app, countL, countL_app p ns m]; omega

mutual

/-- Comment removal never increases a shallow deep count. -/
theorem removeComments_le_node (p : Node → Bool) (hp : shallowP p) (n : Node) :
    countN p (removeCommentsN n) ≤ countN p n := by
  cases n with
  | element t a cs =>
    simp only [removeCommentsN, countN]
    rw [hp t a (removeCommentsL cs) cs]
    have := removeComments_le_list p hp cs
    omega
  | text s => simp [removeCommentsN]
  | comment s => simp [removeCommentsN]

/-- List version of removeComments_le_node. -/
theorem removeComments_le_list (p : Node → Bool) (hp : shallowP p) (ns : NodeList) :
    countL p (removeCommentsL ns) ≤ countL p ns := by
  cases ns with
  | nil => simp [removeCommentsL]
  | cons n ns =>
    cases n with
    | comment s =>
      simp only [removeCommentsL, countL]
      have := removeComments_le_list p hp ns
      omega
    | element t a cs =>
      simp only [removeCommentsL, countL]
      have h1 := removeComments_le_node p hp (Node.element t a cs)
      have h2 := removeComments_le_list p hp ns
      omega
    | text s =>
      simp only [removeCommentsL, countL]
      have h2 := removeComments_le_list p hp ns
      omega

end

mutual

/-- First-match rewriting by a zero-count preserving function preserves a
zero shallow count. -/
theorem mapFirst_zero_node (p : Node → Bool) (hp : shallowP p) (q : Node → Bool)
    (g : Node → Node) (hg : ∀ m, countN p m = 0 → countN p (g m) = 0) (n : Node)
    (h : countN p n = 0) : countN p (mapFirstN q g n).1 = 0 := by
  cases n with
  | element t a cs =>
    rw [mapFirstN]
    by_cases hq : q (.element t a cs) = true
    · rw [if_pos hq]
      exact hg _ h
    · rw [if_neg hq]
      rw [countN] at h ⊢
      rw [hp t a (mapFirstL q g cs).1 cs]
      have : countL p (mapFirstL q g cs).1 = 0 := by
        apply mapFirst_zero_list p hp q g hg
        omega
      omega
  | text s =>
    rw [mapFirstN]
    by_cases hq : q (.text s) = true
    · rw [if_pos hq]; exact hg _ h
    · rw [if_neg hq]; exact h
  | comment s =>
    rw [mapFirstN]
    by_cases hq : q (.comment s) = true
    · rw [if_pos hq]; exact hg _ h
    · rw [if_neg hq]; exact h

/-- List version of mapFirst_zero_node. -/
theorem mapFirst_zero_list (p : Node → Bool) (hp : shallowP p) (q : Node → Bool)
    (g : Node → Node) (hg : ∀ m, countN p m = 0 → countN p (g m) = 0) (ns : NodeList)
    (h : countL p ns = 0) : countL p (mapFirstL q g ns).1 = 0 := by
  cases ns with
  | nil => simp [mapFirstL, countL]
  | cons n ns =>
    rw [mapFirstL]
    rw [countL] at h
    by_cases hfound : (mapFirstN q g n).2 = true
    · rw [if_pos hfound]
      rw [countL]
      have h1 : countN p (mapFirstN q g n).1 = 0 :=
        mapFirst_zero_node p hp q g hg n (by omega)
      omega
    · rw [if_neg hfound]
      rw [countL]
      have h2 : countL p (mapFirstL q g ns).1 = 0 :=
        mapFirst_zero_list p hp q g hg ns (by omega)
      omega

end

mutual

/-- A found subtree has no greater deep count than the tree. -/
theorem findTag_count_le_node (p : Node → Bool) (tg : String) (n m : Node)
    (h : findTagN tg n = some m) : countN p m ≤ countN p n := by
  cases n with
  | element t a cs =>
    rw [findTagN] at h
    by_cases ht : t = tg
    · rw [if_pos ht] at h
      injection h with h2
      rw [h2]
    · rw [if_neg ht] at h
      have := findTag_count_le_list p tg cs m h
      rw [countN]
      omega
  | text s => rw [findTagN] at h; exact absurd h (by simp)
  | comment s => rw [findTagN] at h; exact absurd h (by simp)

/-- List version of findTag_count_le_node. -/
theorem findTag_count_le_list (p : Node → Bool) (tg : String) (ns : NodeList) (m : Node)
    (h : findTagL tg ns = some m) : countN p m ≤ countL p ns := by
  cases ns with
  | nil => rw [findTagL] at h; exact absurd h (by simp)
  | cons n ns =>
    rw [findTagL] at h
    cases hf : findTagN tg n with
    | some r =>
      rw [hf] at h
      injection h with h2
      rw [countL]
      have := findTag_count_le_node p tg n r hf
      rw [h2] at this
      omega
    | none =>
      rw [hf] at h
      have := findTag_count_le_list p tg ns m h
      rw [countL]
      omega

end

mutual

/-- A tree with zero deep count for a tag has no first match for it. -/
theorem findTag_none_node (tg : String) (n : Node)
    (h : countN (tagIs tg) n = 0) : findTagN tg n = none := by
  cases n with
  | element t a cs =>
    rw [countN] at h
    rw [findTagN]
    have ht : ¬ t = tg := by
      intro heq
      rw [tagIs] at h
      simp [heq] at h
    rw [if_neg ht]
    exact findTag_none_list tg cs (by rw [tagIs] at h; omega)
  | text s => rfl
  | comment s => rfl

/-- List version of findTag_none_node. -/
theorem findTag_none_list (tg : String) (ns : NodeList)
    (h : countL (tagIs tg) ns = 0) : findTagL tg ns = none := by
  cases ns with
  | nil => rfl
  | cons n ns =>
    rw [countL] at h
    rw [findTagL, findTag_none_node tg n (by omega)]
    exact findTag_none_list tg ns (by omega)

end

mutual

/-- Extraction leaves a tree without protected elements unchanged and
produces no table entries. -/
theorem ruc_clean_node (lbl : String) (n : Node) (k : Nat)
    (h : countN isProtectedB n = 0) : rucNode lbl n k = (n, k, []) := by
  cases n with
  | element t a cs =>
    rw [countN] at h
    have ht : isProtectedTag t = false := by
      cases h2 : isProtectedTag t with
      | true => rw [isProtectedB, h2] at h; simp at h
      | false => rfl
    rw [rucNode, ht]
    simp only [Bool.false_eq_true, if_false]
    rw [ruc_clean_list lbl cs k (by rw [isProtectedB, ht] at h; simpa using h)]
  | text s => rfl
  | comment s => rfl

/-- List version of ruc_clean_node. -/
theorem ruc_clean_list (lbl : String) (ns : NodeList) (k : Nat)
    (h : countL isProtectedB ns = 0) : rucList lbl ns k = (ns, k, []) := by
  cases ns with
  | nil => rfl
  | cons n ns =>
    rw [countL] at h
    rw [rucList, ruc_clean_node lbl n k (by omega), ruc_clean_list lbl ns k (by omega)]
    rfl

end

mutual

/-- Extraction preserves a zero shallow count when placeholders do not
satisfy the predicate, and all recorded table values then have zero count
as well. -/
theorem ruc_zero_node (p : Node → Bool) (hp : shallowP p)
    (hph : ∀ t rid, countN p (placeholderFor t rid) = 0)
    (lbl : String) (n : Node) (k : Nat) (h : countN p n = 0) :
    countN p (rucNode lbl n k).1 = 0
      ∧ ∀ pr ∈ (rucNode lbl n k).2.2, countN p pr.2 = 0 := by
  cases n with
  | element t a cs =>
    by_cases hprot : isProtectedTag t = true
    · rw [rucNode, if_pos hprot]
      refine ⟨hph t _, ?_⟩
      intro pr hpr
      simp at hpr
      subst hpr
      exact h
    · have hq : isProtectedTag t = false := by
        cases h2 : isProtectedTag t with
        | true => exact absurd h2 hprot
        | false => rfl
      rw [rucNode, hq]
      simp only [Bool.false_eq_true, if_false]
      rw [countN] at h
      have hcs : countL p cs = 0 := by omega
      have := ruc_zero_list p hp hph lbl cs k hcs
      refine ⟨?_, this.2⟩
      rw [countN, hp t a _ cs]
      omega
  | text s => exact ⟨h, by simp [rucNode]⟩
  | comment s => exact ⟨h, by simp [rucNode]⟩

/-- List version of ruc_zero_node. -/
theorem ruc_zero_list (p : Node → Bool) (hp : shallowP p)
    (hph : ∀ t rid, countN p (placeholderFor t rid) = 0)
    (lbl : String) (ns : NodeList) (k : Nat) (h : countL p ns = 0) :
    countL p (rucList lbl ns k).1 = 0
      ∧ ∀ pr ∈ (rucList lbl ns k).2.2, countN p pr.2 = 0 := by
  cases ns with
  | nil => exact ⟨h, by simp [rucList]⟩
  | cons n ns =>
    rw [countL] at h
    have h1 := ruc_zero_node p hp hph lbl n k (by omega)
    have h2 := ruc_zero_list p hp hph lbl ns (rucNode lbl n k).2.1 (by omega)
    rw [rucList]
    constructor
    · rw [countL]
      have := h1.1
      have := h2.1
      omega
    · intro pr hpr
      rcases List.mem_append.mp hpr with hm | hm
      · exact h1.2 pr hm
      · exact h2.2 pr hm

end

mutual

/-- Extraction records only table values with no greater shallow count
than the tree (used when the tree itself is not clean). -/
theorem ruc_values_node (p : Node → Bool) (lbl : String) (n : Node) (k : Nat)
    (h : countN p n = 0) : ∀ pr ∈ (rucNode lbl n k).2.2, countN p pr.2 = 0 := by
  cases n with
  | element t a cs =>
    by_cases hprot : isProtectedTag t = true
    · rw [rucNode, if_pos hprot]
      intro pr hpr
      simp at hpr
      subst hpr
      exact h
    · have hq : isProtectedTag t = false := by
        cases h2 : isProtectedTag t with
        | true => exact absurd h2 hprot
        | false => rfl
      rw [rucNode, hq]
      simp only [Bool.false_eq_true, if_false]
      rw [countN] at h
      exact ruc_values_list p lbl cs k (by omega)
  | text s => simp [rucNode]
  | comment s => simp [rucNode]

/-- List version of ruc_values_node. -/
theorem ruc_values_list (p : Node → Bool) (lbl : String) (ns : NodeList) (k : Nat)
    (h : countL p ns = 0) : ∀ pr ∈ (rucList lbl ns k).2.2, countN p pr.2 = 0 := by
  cases ns with
  | nil => simp [rucList]
  | cons n ns =>
    rw [countL] at h
    intro pr hpr
    rw [rucList] at hpr
    rcases List.mem_append.mp hpr with hm | hm
    · exact ruc_values_node p lbl n k (by omega) pr hm
    · exact ruc_values_list p lbl ns (rucNode lbl n k).2.1 (by omega) pr hm

end

mutual

/-- Reinsertion is the identity on a tree without the reserved
attribute. -/
theorem auc_id_node (tbl : List (String × Node)) (n : Node)
    (h : countN hasReservedB n = 0) : aucNode tbl n = some n := by
  cases n with
  | element t a cs =>
    rw [countN] at h
    have ha : lookupA a "wm-diff-replacement" = none := by
      cases h2 : lookupA a "wm-diff-replacement" with
      | none => rfl
      | some v => rw [hasReservedB, h2] at h; simp at h
    rw [aucNode, ha, auc_id_list tbl cs (by rw [hasReservedB, ha] at h; simpa using h)]
  | text s => rfl
  | comment s => rfl

/-- List version of auc_id_node. -/
theorem auc_id_list (tbl : List (String × Node)) (ns : NodeList)
    (h : countL hasReservedB ns = 0) : aucList tbl ns = some ns := by
  cases ns with
  | nil => rfl
  | cons n ns =>
    rw [countL] at h
    rw [aucList, auc_id_node tbl n (by omega), auc_id_list tbl ns (by omega)]

end

/-- Setting the class attribute does not touch any other key. -/
theorem lookupA_setA_other (a : List (String × String)) (k v k2 : String)
    (h : ¬ k = k2) : lookupA (setA a k v) k2 = lookupA a k2 := by
  induction a with
  | nil => simp [setA, lookupA, h]
  | cons p rest ih =>
    obtain ⟨k3, v3⟩ := p
    by_cases h3 : k3 = k
    · subst h3
      simp [setA, lookupA, h]
    · simp [setA, h3, lookupA, ih]

/-- Setting the class attribute preserves a zero reserved-attribute
count. -/
theorem setClass_reserved (n : Node) (v : String)
    (h : countN hasReservedB n = 0) : countN hasReservedB (setClass n v) = 0 := by
  cases n with
  | element t a cs =>
    rw [setClass]
    rw [countN] at h ⊢
    have : hasReservedB (.element t (setA a "class" v) cs) = hasReservedB (.element t a cs) := by
      rw [hasReservedB, hasReservedB, lookupA_setA_other a "class" v "wm-diff-replacement" (by decide)]
    rw [this]
    omega
  | text s => exact h
  | comment s => exact h

/-- A successful table lookup is a membership. -/
theorem tblLookup_mem (tbl : List (String × Node)) (rid : String) (repl : Node)
    (h : tblLookup tbl rid = some repl) : (rid, repl) ∈ tbl := by
  induction tbl with
  | nil => simp [tblLookup] at h
  | cons pr rest ih =>
    obtain ⟨k, v⟩ := pr
    rw [tblLookup] at h
    by_cases hk : k = rid
    · rw [if_pos hk] at h
      injection h with h2
      subst h2
      subst hk
      simp
    · rw [if_neg hk] at h
      simp [ih h]

mutual

/-- When every table value is free of the reserved attribute, a
reinsertion that completes leaves a tree with no reserved attribute. -/
theorem auc_no_reserved_node (tbl : List (String × Node))
    (hvals : ∀ pr ∈ tbl, countN hasReservedB pr.2 = 0)
    (htruthy : ∀ pr ∈ tbl, truthyN pr.2 = true) (n : Node) (out : Node)
    (h : aucNode tbl n = some out) : countN hasReservedB out = 0 := by
  cases n with
  | element t a cs =>
    rw [aucNode] at h
    cases ha : lookupA a "wm-diff-replacement" with
    | some rid =>
      simp only [ha] at h
      cases hT : tblLookup tbl rid with
      | none => simp [hT] at h
      | some repl =>
        simp only [hT] at h
        have hrepl : countN hasReservedB repl = 0 := by
          have := tblLookup_mem tbl rid repl hT
          exact hvals (rid, repl) this
        rw [if_pos (htruthy (rid, repl) (tblLookup_mem tbl rid repl hT))] at h
        by_cases hs : strStarts rid "old-" = true
        · rw [if_pos hs] at h
          injection h with h2
          rw [← h2]
          rw [countN, countL, countL]
          have h3 : hasReservedB (Node.element "template" [("class", "wm-diff-deleted-inert")]
              (NodeList.cons (setClass repl "wm-diff-deleted-active") NodeList.nil)) = false := rfl
          rw [h3]
          simp only [Bool.false_eq_true, if_false]
          have := setClass_reserved repl "wm-diff-deleted-active" hrepl
          omega
        · have hs2 : strStarts rid "old-" = false := by
            cases h2 : strStarts rid "old-" with
            | true => exact absurd h2 hs
            | false => rfl
          rw [hs2] at h
          simp only [Bool.false_eq_true, if_false] at h
          injection h with h2
          rw [← h2]
          exact setClass_reserved repl "wm-diff-inserted-active" hrepl
    | none =>
      simp only [ha] at h
      cases hcs : aucList tbl cs with
      | none => simp [hcs] at h
      | some cs2 =>
        simp only [hcs] at h
        injection h with h2
        rw [← h2]
        rw [countN]
        have h3 : hasReservedB (.element t a cs2) = false := by
          simp [hasReservedB, ha]
        rw [h3]
        simp only [Bool.false_eq_true, if_false]
        have := auc_no_reserved_list tbl hvals htruthy cs cs2 hcs
        omega
  | text s =>
    rw [aucNode] at h
    injection h with h2
    simp [← h2, countN, hasReservedB]
  | comment s =>
    rw [aucNode] at h
    injection h with h2
    simp [← h2, countN, hasReservedB]

/-- List version of auc_no_reserved_node. -/
theorem auc_no_reserved_list (tbl : List (String × Node))
    (hvals : ∀ pr ∈ tbl, countN hasReservedB pr.2 = 0)
    (htruthy : ∀ pr ∈ tbl, truthyN pr.2 = true) (ns : NodeList) (out : NodeList)
    (h : aucList tbl ns = some out) : countL hasReservedB out = 0 := by
  cases ns with
  | nil =>
    rw [aucList] at h
    injection h with h2
    rw [← h2, countL]
  | cons n ns =>
    rw [aucList] at h
    cases hn : aucNode tbl n with
    | none => rw [hn] at h; exact absurd h (by simp)
    | some n2 =>
      rw [hn] at h
      cases hns : aucList tbl ns with
      | none => rw [hns] at h; exact absurd h (by simp)
      | some ns2 =>
        rw [hns] at h
        injection h with h2
        rw [← h2, countL]
        have := auc_no_reserved_node tbl hvals htruthy n n2 hn
        have := auc_no_reserved_list tbl hvals htruthy ns ns2 hns
        omega

end

mutual

/-- Every recorded table value is a tag element, hence truthy. -/
theorem ruc_truthy_node (lbl : String) (n : Node) (k : Nat) :
    ∀ pr ∈ (rucNode lbl n k).2.2, truthyN pr.2 = true := by
  cases n with
  | element t a cs =>
    by_cases hprot : isProtectedTag t = true
    · rw [rucNode, if_pos hprot]
      intro pr hpr
      simp at hpr
      subst hpr
      rfl
    · have hq : isProtectedTag t = false := by
        cases h2 : isProtectedTag t with
        | true => exact absurd h2 hprot
        | false => rfl
      rw [rucNode, hq]
      simp only [Bool.false_eq_true, if_false]
      exact ruc_truthy_list lbl cs k
  | text s => simp [rucNode]
  | comment s => simp [rucNode]

/-- List version of ruc_truthy_node. -/
theorem ruc_truthy_list (lbl : String) (ns : NodeList) (k : Nat) :
    ∀ pr ∈ (rucList lbl ns k).2.2, truthyN pr.2 = true := by
  cases ns with
  | nil => simp [rucList]
  | cons n ns =>
    intro pr hpr
    rw [rucList] at hpr
    rcases List.mem_append.mp hpr with hm | hm
    · exact ruc_truthy_node lbl n k pr hm
    · exact ruc_truthy_list lbl ns (rucNode lbl n k).2.1 pr hm

end

/-- The reserved-attribute test is shallow. -/
theorem shallow_hasReserved : shallowP hasReservedB := by
  intro t a cs cs2
  rfl

/-- Head synthesis preserves a zero shallow count when the predicate
rejects head elements and elements without a tag. -/
theorem ensureHead_zero (p : Node → Bool) (hp : shallowP p)
    (hhead : ∀ cs, p (.element "head" [] cs) = false)
    (hempty : ∀ cs, p (.element "" [] cs) = false)
    (n m : Node) (h0 : countN p n = 0) (h : ensureHead n = some m) :
    countN p m = 0 := by
  rw [ensureHead] at h
  cases h1 : findTagN "head" n with
  | some x =>
    rw [h1] at h
    injection h with h2
    rw [← h2]
    exact h0
  | none =>
    rw [h1] at h
    cases h2 : findTagN "html" n with
    | none => rw [h2] at h; exact absurd h (by simp)
    | some x =>
      rw [h2] at h
      injection h with h3
      rw [← h3, insertFirstChildN]
      apply mapFirst_zero_node p hp _ _ _ n h0
      intro m2 hm2
      have e2 : countN p (Node.element "head" [] NodeList.nil) = 0 := by
        simp [countN, countL, hhead]
      cases m2 with
      | element t a cs =>
        rw [countN] at hm2 ⊢
        simp only [tagN, attrsN, childrenN, countL]
        simp only [hp t a (NodeList.cons (Node.element "head" [] NodeList.nil) cs) cs]
        rw [e2]
        omega
      | text s =>
        rw [countN]
        simp only [tagN, attrsN, childrenN, countL]
        simp only [hempty]
        rw [e2]
        simp
      | comment s =>
        rw [countN]
        simp only [tagN, attrsN, childrenN, countL]
        simp only [hempty]
        rw [e2]
        simp

/-- Old input of the C4 counterexample: a head script that already
carries the reserved placeholder attribute. -/
def c4OldDoc : Node :=
  mkDoc [] [.element "script" [("wm-diff-replacement", "evil")] (.cons (.text "boom") .nil)]
    [] []

/-- New input of the C4 counterexample: empty document. -/
def c4NewDoc : Node := mkDoc [] [] [] []

/-- C4 counterexample.  A pair of inputs whose final output document does
contain an element carrying the reserved placeholder attribute: the old
input smuggles the attribute on a script element; the script is recorded
in the table, restored at reinsertion, and its own smuggled attribute
survives into the final output (the select list was computed before the
loop, so restored content is never rescanned). -/
theorem no_reserved_attribute_cex :
    (html_diff_render c4OldDoc c4NewDoc).map (countN hasReservedB) = some 1 := by
  decide

/-- C4 amended.  For every pair of input documents that do not themselves
carry the reserved placeholder attribute, a render that completes
produces a final output document with no element carrying the reserved
attribute: every placeholder found at reinsertion is replaced by a
recorded element (which is then clean), and a missing id aborts the
render instead. -/
theorem render_no_reserved (a b out : Node)
    (hca : countN hasReservedB a = 0) (hcb : countN hasReservedB b = 0)
    (hout : html_diff_render a b = some out) : countN hasReservedB out = 0 := by
  simp only [html_diff_render, bind, Option.bind_eq_some] at hout
  obtain ⟨soup_new1, h1, hout⟩ := hout
  obtain ⟨bodyEl, h2, hout⟩ := hout
  obtain ⟨s4, h4, hout⟩ := hout
  obtain ⟨s5, h5, hout⟩ := hout
  obtain ⟨s6, h6, hout⟩ := hout
  have hrca : countN hasReservedB (removeCommentsN a) = 0 := by
    have := removeComments_le_node hasReservedB shallow_hasReserved a
    omega
  have hrcb : countN hasReservedB (removeCommentsN b) = 0 := by
    have := removeComments_le_node hasReservedB shallow_hasReserved b
    omega
  have hnew1 : countN hasReservedB soup_new1 = 0 :=
    ensureHead_zero hasReservedB shallow_hasReserved (fun cs => rfl) (fun cs => rfl)
      (removeCommentsN b) soup_new1 hrcb h1
  apply auc_no_reserved_node _ _ _ _ out hout
  · intro pr hpr
    rcases List.mem_append.mp hpr with hm | hm
    · exact ruc_values_node hasReservedB "old" (removeCommentsN a) 0 hrca pr hm
    · exact ruc_values_node hasReservedB "new" soup_new1 0 hnew1 pr hm
  · intro pr hpr
    rcases List.mem_append.mp hpr with hm | hm
    · exact ruc_truthy_node "old" (removeCommentsN a) 0 pr hm
    · exact ruc_truthy_node "new" soup_new1 0 pr hm

/-- Witness for C4 amended at a concrete input pair. -/
theorem render_no_reserved_witness :
    countN hasReservedB
        ((html_diff_render
          (mkDoc [] [.element "script" [] (.cons (.text "var a;") .nil)] [] [.element "p" [] (.cons (.text "hi") .nil)])
          (mkDoc [] [] [] [.element "p" [] (.cons (.text "ho") .nil)])).getD (.text "")) = 0 := by
  have h := render_no_reserved
    (mkDoc [] [.element "script" [] (.cons (.text "var a;") .nil)] [] [.element "p" [] (.cons (.text "hi") .nil)])
    (mkDoc [] [] [] [.element "p" [] (.cons (.text "ho") .nil)])
    ((html_diff_render
      (mkDoc [] [.element "script" [] (.cons (.text "var a;") .nil)] [] [.element "p" [] (.cons (.text "hi") .nil)])
      (mkDoc [] [] [] [.element "p" [] (.cons (.text "ho") .nil)])).getD (.text ""))
    (by decide) (by decide) (by decide)
  exact h

/-- The comment test is shallow. -/
theorem shallow_isComment : shallowP isCommentB := by
  intro t a cs cs2
  rfl

mutual

/-- Comment removal leaves a non-comment node free of comments. -/
theorem rc_zero_node (n : Node) (h : isCommentB n = false) :
    countN isCommentB (removeCommentsN n) = 0 := by
  cases n with
  | element t a cs =>
    rw [removeCommentsN, countN, rc_zero_list cs]
    simp [isCommentB]
  | text s => rfl
  | comment s => simp [isCommentB] at h

/-- Comment removal leaves a child list free of comments. -/
theorem rc_zero_list (ns : NodeList) : countL isCommentB (removeCommentsL ns) = 0 := by
  cases ns with
  | nil => rfl
  | cons n ns =>
    cases n with
    | comment s =>
      rw [removeCommentsL]
      exact rc_zero_list ns
    | element t a cs =>
      rw [removeCommentsL, countL, rc_zero_node (Node.element t a cs) rfl, rc_zero_list ns]
    | text s =>
      rw [removeCommentsL, countL, rc_zero_list ns]
      rfl

end

/-- Shallow predicate value of one potential element. -/
def pShallow (p : Node → Bool) (t : String) (a : List (String × String)) : Bool :=
  p (.element t a .nil)

/-- Count of start-tag items satisfying a shallow predicate. -/
def pItems (p : Node → Bool) (items : List Item) : Nat :=
  (items.map (fun i => match i with
    | Item.openT t a => if pShallow p t a then 1 else 0
    | _ => 0)).sum

/-- Count carried by the rebuild stack. -/
def pFrames (p : Node → Bool) (st : List BFrame) : Nat :=
  (st.map (fun f => (if pShallow p f.tagB f.attrsB then 1 else 0) + pNodes p f.accB)).sum

/-- Element shallow count is frame independent. -/
theorem countN_element_shallow (p : Node → Bool) (hp : shallowP p) (t : String)
    (a : List (String × String)) (l : List Node) :
    countN p (.element t a (NodeList.ofL l)) = (if pShallow p t a then 1 else 0) + pNodes p l := by
  rw [countN, countL_ofL]
  simp only [pShallow]
  rw [hp t a (NodeList.ofL l) NodeList.nil]

/-- Unwinding the rebuild stack preserves the total shallow count. -/
theorem rebuildUnwind_count (p : Node → Bool) (hp : shallowP p) (st : List BFrame)
    (acc : List Node) :
    pNodes p (rebuildUnwind st acc) = pFrames p st + pNodes p acc := by
  induction st generalizing acc with
  | nil => simp [rebuildUnwind, pFrames]
  | cons f st2 ih =>
    rw [rebuildUnwind, ih]
    have e := countN_element_shallow p hp f.tagB f.attrsB acc
    simp only [pFrames, pNodes, List.map_cons, List.sum_cons, List.map_append,
      List.sum_append, List.map_nil, List.sum_nil] at *
    omega

/-- The rebuilt fragment carries exactly the shallow count of the start
tags of its item stream (texts never satisfy a shallow node predicate
that rejects strings). -/
theorem rebuildAux_count (p : Node → Bool) (hp : shallowP p)
    (htext : ∀ s, p (.text s) = false) (items : List Item) (acc : List Node)
    (st : List BFrame) :
    pNodes p (rebuildAux items acc st) = pItems p items + pNodes p acc + pFrames p st := by
  have htx : ∀ s, countN p (Node.text s) = 0 := by
    intro s
    simp [countN, htext]
  induction items generalizing acc st with
  | nil =>
    rw [rebuildAux, rebuildUnwind_count p hp]
    simp [pItems]
    omega
  | cons i rest ih =>
    cases i with
    | openT t a =>
      rw [rebuildAux, ih]
      simp only [pItems, pFrames, pNodes, List.map_cons, List.sum_cons, List.map_nil,
        List.sum_nil]
      omega
    | closeT t =>
      cases st with
      | nil =>
        rw [rebuildAux, ih]
        simp only [pItems, pFrames, pNodes, List.map_cons, List.sum_cons, List.map_nil,
          List.sum_nil]
        omega
      | cons f st2 =>
        rw [rebuildAux, ih]
        have e := countN_element_shallow p hp f.tagB f.attrsB acc
        simp only [pItems, pFrames, pNodes, List.map_cons, List.sum_cons, List.map_append,
          List.sum_append, List.map_nil, List.sum_nil] at *
        omega
    | textI s =>
      rw [rebuildAux, ih]
      have := htx s
      simp only [pItems, pFrames, pNodes, List.map_cons, List.sum_cons, List.map_append,
        List.sum_append, List.map_nil, List.sum_nil] at *
      omega
    | wordI w ws =>
      rw [rebuildAux, ih]
      have := htx (w ++ (if ws then " " else ""))
      simp only [pItems, pFrames, pNodes, List.map_cons, List.sum_cons, List.map_append,
        List.sum_append, List.map_nil, List.sum_nil] at *
      omega
    | hrefI u =>
      rw [rebuildAux, ih]
      simp [pItems]

/-- Left trimming never increases the fragment count. -/
theorem trimLeadF_le (p : Node → Bool) (htext : ∀ s, p (.text s) = false) (l : List Node) :
    pNodes p (trimLeadF l) ≤ pNodes p l := by
  induction l with
  | nil => simp [trimLeadF]
  | cons n rest ih =>
    cases n with
    | text s =>
      rw [trimLeadF]
      by_cases h : String.mk (s.toList.dropWhile Char.isWhitespace) = ""
      · rw [if_pos h]
        refine le_trans ih ?_
        simp [pNodes]
      · rw [if_neg h]
        simp only [pNodes, List.map_cons, List.sum_cons]
        simp [countN, htext]
    | element t a cs => exact le_refl _
    | comment s => exact le_refl _

/-- Right trimming (on the reversed fragment) never increases the
count. -/
theorem trimTrailRev_le (p : Node → Bool) (htext : ∀ s, p (.text s) = false) (l : List Node) :
    pNodes p (trimTrailRev l) ≤ pNodes p l := by
  induction l with
  | nil => simp [trimTrailRev]
  | cons n rest ih =>
    cases n with
    | text s =>
      rw [trimTrailRev]
      by_cases h : String.mk ((s.toList.reverse.dropWhile Char.isWhitespace).reverse) = ""
      · rw [if_pos h]
        refine le_trans ih ?_
        simp [pNodes]
      · rw [if_neg h]
        simp only [pNodes, List.map_cons, List.sum_cons]
        simp [countN, htext]
    | element t a cs => exact le_refl _
    | comment s => exact le_refl _

/-- Reversal preserves the fragment count. -/
theorem pNodes_reverse (p : Node → Bool) (l : List Node) :
    pNodes p l.reverse = pNodes p l := by
  simp [pNodes, List.map_reverse, List.sum_reverse]

/-- Stripping never increases the fragment count. -/
theorem stripFrag_le (p : Node → Bool) (htext : ∀ s, p (.text s) = false) (l : List Node) :
    pNodes p (stripFrag l) ≤ pNodes p l := by
  rw [stripFrag, pNodes_reverse]
  refine le_trans (trimTrailRev_le p htext _) ?_
  rw [pNodes_reverse]
  exact trimLeadF_le p htext l

/-- No start-tag item counts as a comment. -/
theorem pItems_comment (items : List Item) : pItems isCommentB items = 0 := by
  induction items with
  | nil => rfl
  | cons i rest ih =>
    cases i with
    | openT t a =>
      simp only [pItems, List.map_cons, List.sum_cons] at *
      simpa [pShallow, isCommentB] using ih
    | closeT t => simp only [pItems, List.map_cons, List.sum_cons] at *; simpa using ih
    | wordI w ws => simp only [pItems, List.map_cons, List.sum_cons] at *; simpa using ih
    | hrefI u => simp only [pItems, List.map_cons, List.sum_cons] at *; simpa using ih
    | textI s => simp only [pItems, List.map_cons, List.sum_cons] at *; simpa using ih

/-- The body diff never produces a comment node: its output is rebuilt
from tag and text items only. -/
theorem diff_elements_comment (o n : Option Node) :
    countN isCommentB (diff_elements o n) = 0 := by
  cases o with
  | none => cases n <;> rfl
  | some ov =>
    cases n with
    | none => rfl
    | some nv =>
      cases nv with
      | element t a cs =>
        rw [diff_elements]
        by_cases h : (truthyN ov && truthyN (Node.element t a cs)) = true
        · rw [if_pos h]
          rw [countN]
          have h1 : countL isCommentB
              (NodeList.ofL (htmldiff (childrenN ov) (childrenN (.element t a cs)))) = 0 := by
            rw [countL_ofL]
            have h2 := stripFrag_le isCommentB (fun s => rfl)
              (rebuildItems (htmldiffStream (childrenN ov) (childrenN (.element t a cs))))
            rw [htmldiff, fixup_ins_del_tags]
            have h3 : pNodes isCommentB
                (rebuildItems (htmldiffStream (childrenN ov) (childrenN (.element t a cs)))) = 0 := by
              rw [rebuildItems, rebuildAux_count isCommentB shallow_isComment (fun s => rfl)]
              simp [pItems_comment, pNodes, pFrames]
            omega
          rw [h1]
          rfl
        · rw [if_neg h]
          rfl
      | text s =>
        rw [diff_elements]
        by_cases h : (truthyN ov && truthyN (Node.text s)) = true
        · rw [if_pos h]; rfl
        · rw [if_neg h]; rfl
      | comment s =>
        rw [diff_elements]
        by_cases h : (truthyN ov && truthyN (Node.comment s)) = true
        · rw [if_pos h]; rfl
        · rw [if_neg h]; rfl

/-- A child list never counts more than its node. -/
theorem countL_children_le (p : Node → Bool) (m : Node) :
    countL p (childrenN m) ≤ countN p m := by
  cases m with
  | element t a cs => rw [childrenN, countN]; omega
  | text s => simp [childrenN, countL]
  | comment s => simp [childrenN, countL]

/-- Appending a clean child to the first match preserves a zero shallow
count when the predicate rejects elements without a tag. -/
theorem appendToFirst_zero (p : Node → Bool) (hp : shallowP p)
    (hempty : ∀ cs, p (.element "" [] cs) = false) (tg : String) (child n m : Node)
    (h0 : countN p n = 0) (hc : countN p child = 0)
    (h : appendToFirstN tg child n = some m) : countN p m = 0 := by
  rw [appendToFirstN] at h
  cases h1 : findTagN tg n with
  | none => rw [h1] at h; exact absurd h (by simp)
  | some x =>
    rw [h1] at h
    injection h with h2
    rw [← h2]
    apply mapFirst_zero_node p hp _ _ _ n h0
    intro m2 hm2
    cases m2 with
    | element t a cs =>
      rw [countN] at hm2 ⊢
      simp only [tagN, attrsN, childrenN]
      rw [countL_app, countL, countL]
      simp only [hp t a (NodeList.app cs (NodeList.cons child NodeList.nil)) cs]
      omega
    | text s =>
      rw [countN]
      simp only [tagN, attrsN, childrenN]
      rw [countL_app, countL, countL]
      simp only [hempty]
      simp only [NodeList.app, countL, Bool.false_eq_true, if_false]
      omega
    | comment s =>
      rw [countN]
      simp only [tagN, attrsN, childrenN]
      rw [countL_app, countL, countL]
      simp only [hempty]
      simp only [NodeList.app, countL, Bool.false_eq_true, if_false]
      omega

/-- Replacing the first match by a clean node preserves a zero shallow
count. -/
theorem replaceFirst_zero (p : Node → Bool) (hp : shallowP p) (tg : String)
    (r n : Node) (h0 : countN p n = 0) (hr : countN p r = 0) :
    countN p (replaceFirstN tg r n) = 0 := by
  rw [replaceFirstN]
  exact mapFirst_zero_node p hp _ _ (fun m _ => hr) n h0

mutual

/-- A reinsertion that completes on a comment-free tree with comment-free
table values yields a comment-free tree. -/
theorem auc_comment_node (tbl : List (String × Node))
    (hvals : ∀ pr ∈ tbl, countN isCommentB pr.2 = 0) (n : Node) (out : Node)
    (h0 : countN isCommentB n = 0) (h : aucNode tbl n = some out) :
    countN isCommentB out = 0 := by
  cases n with
  | element t a cs =>
    rw [aucNode] at h
    cases ha : lookupA a "wm-diff-replacement" with
    | some rid =>
      simp only [ha] at h
      cases hT : tblLookup tbl rid with
      | none => simp [hT] at h
      | some repl =>
        simp only [hT] at h
        have hrepl : countN isCommentB repl = 0 :=
          hvals (rid, repl) (tblLookup_mem tbl rid repl hT)
        have hsetc : ∀ v, countN isCommentB (setClass repl v) = 0 := by
          intro v
          cases repl with
          | element rt ra rcs =>
            rw [setClass, countN]
            rw [countN] at hrepl
            simp only [isCommentB, Bool.false_eq_true, if_false] at *
            omega
          | text s => rw [setClass]; exact hrepl
          | comment s => rw [setClass]; exact hrepl
        by_cases htr : truthyN repl = true
        · rw [if_pos htr] at h
          by_cases hs : strStarts rid "old-" = true
          · rw [if_pos hs] at h
            injection h with h2
            rw [← h2, countN, countL, countL]
            have h4 := hsetc "wm-diff-deleted-active"
            simp only [isCommentB, Bool.false_eq_true, if_false]
            omega
          · have hs2 : strStarts rid "old-" = false := by
              cases hx : strStarts rid "old-" with
              | true => exact absurd hx hs
              | false => rfl
            rw [hs2] at h
            simp only [Bool.false_eq_true, if_false] at h
            injection h with h2
            rw [← h2]
            exact hsetc "wm-diff-inserted-active"
        · have htr2 : truthyN repl = false := by
            cases hx : truthyN repl with
            | true => exact absurd hx htr
            | false => rfl
          rw [htr2] at h
          simp only [Bool.false_eq_true, if_false] at h
          injection h with h2
          rw [← h2]
          exact h0
    | none =>
      simp only [ha] at h
      cases hcs : aucList tbl cs with
      | none => simp [hcs] at h
      | some cs2 =>
        simp only [hcs] at h
        injection h with h2
        rw [countN] at h0
        have h5 := auc_comment_list tbl hvals cs cs2 (by omega) hcs
        rw [← h2, countN]
        simp only [isCommentB, Bool.false_eq_true, if_false] at *
        omega
  | text s =>
    rw [aucNode] at h
    injection h with h2
    rw [← h2]
    exact h0
  | comment s =>
    rw [aucNode] at h
    injection h with h2
    rw [← h2]
    exact h0

/-- List version of auc_comment_node. -/
theorem auc_comment_list (tbl : List (String × Node))
    (hvals : ∀ pr ∈ tbl, countN isCommentB pr.2 = 0) (ns : NodeList) (out : NodeList)
    (h0 : countL isCommentB ns = 0) (h : aucList tbl ns = some out) :
    countL isCommentB out = 0 := by
  cases ns with
  | nil =>
    rw [aucList] at h
    injection h with h2
    rw [← h2, countL]
  | cons n ns =>
    rw [aucList] at h
    cases hn : aucNode tbl n with
    | none => rw [hn] at h; exact absurd h (by simp)
    | some n2 =>
      rw [hn] at h
      cases hns : aucList tbl ns with
      | none => rw [hns] at h; exact absurd h (by simp)
      | some ns2 =>
        rw [hns] at h
        injection h with h2
        rw [← h2, countL]
        rw [countL] at h0
        have := auc_comment_node tbl hvals n n2 (by omega) hn
        have := auc_comment_list tbl hvals ns ns2 (by omega) hns
        omega

end

/-- Comment count of every placeholder is zero. -/
theorem placeholder_comment (t rid : String) :
    countN isCommentB (placeholderFor t rid) = 0 := by
  simp [placeholderFor, countN, countL, isCommentB]

/-- C9.  For every pair of inputs on which the render completes, the
output document contains no comment node: both trees are stripped of
comments before any diffing, the extraction tables then hold comment-free
elements, the body diff is rebuilt from tag and text items only, and
every assembly step adds comment-free content. -/
theorem render_no_comments (a b out : Node)
    (hout : html_diff_render a b = some out) : countN isCommentB out = 0 := by
  simp only [html_diff_render, bind, Option.bind_eq_some] at hout
  obtain ⟨soup_new1, h1, hout⟩ := hout
  obtain ⟨bodyEl, h2, hout⟩ := hout
  obtain ⟨s4, h4, hout⟩ := hout
  obtain ⟨s5, h5, hout⟩ := hout
  obtain ⟨s6, h6, hout⟩ := hout
  simp only [remove_undiffable_content] at h2 h4 h5 h6 hout
  have hb0 : countN isCommentB soup_new1 = 0 := by
    by_cases hbc : isCommentB b = true
    · cases b with
      | comment s =>
        rw [removeCommentsN, ensureHead] at h1
        simp [findTagN] at h1
      | element t a2 cs => simp [isCommentB] at hbc
      | text s => simp [isCommentB] at hbc
    · have hb1 : isCommentB b = false := by
        cases hx : isCommentB b with
        | true => exact absurd hx hbc
        | false => rfl
      exact ensureHead_zero isCommentB shallow_isComment (fun cs => rfl) (fun cs => rfl)
        (removeCommentsN b) soup_new1 (rc_zero_node b hb1) h1
  have hnew := ruc_zero_node isCommentB shallow_isComment placeholder_comment
    "new" soup_new1 0 hb0
  have holdvals : ∀ pr ∈ (rucNode "old" (removeCommentsN a) 0).2.2,
      countN isCommentB pr.2 = 0 := by
    by_cases hac : isCommentB a = true
    · cases a with
      | comment s =>
        rw [removeCommentsN, rucNode]
        simp
      | element t a2 cs => simp [isCommentB] at hac
      | text s => simp [isCommentB] at hac
    · have ha1 : isCommentB a = false := by
        cases hx : isCommentB a with
        | true => exact absurd hx hac
        | false => rfl
      exact (ruc_zero_node isCommentB shallow_isComment placeholder_comment
        "old" (removeCommentsN a) 0 (rc_zero_node a ha1)).2
  have hohc : countL isCommentB
      (match findTagN "head" (rucNode "old" (removeCommentsN a) 0).1 with
        | some h => if truthyN h then childrenN h else .nil
        | none => NodeList.nil) = 0 := by
    cases hfh : findTagN "head" (rucNode "old" (removeCommentsN a) 0).1 with
    | none => simp [countL]
    | some hd =>
      simp only
      have hold0 : countN isCommentB (rucNode "old" (removeCommentsN a) 0).1 = 0 := by
        by_cases hac : isCommentB a = true
        · cases a with
          | comment s =>
            rw [removeCommentsN, rucNode] at hfh
            simp [findTagN] at hfh
          | element t a2 cs => simp [isCommentB] at hac
          | text s => simp [isCommentB] at hac
        · have ha1 : isCommentB a = false := by
            cases hx : isCommentB a with
            | true => exact absurd hx hac
            | false => rfl
          exact (ruc_zero_node isCommentB shallow_isComment placeholder_comment
            "old" (removeCommentsN a) 0 (rc_zero_node a ha1)).1
      have hle := findTag_count_le_node isCommentB "head" _ hd hfh
      have hch := countL_children_le isCommentB hd
      by_cases htr : truthyN hd = true
      · rw [if_pos htr]
        omega
      · have htr2 : truthyN hd = false := by
          cases hx : truthyN hd with
          | true => exact absurd hx htr
          | false => rfl
        rw [htr2]
        simp [countL]
  have h30 : countN isCommentB
      (replaceFirstN "body"
        (diff_elements (findTagN "body" (rucNode "old" (removeCommentsN a) 0).1)
          (findTagN "body" (rucNode "new" soup_new1 0).1))
        (rucNode "new" soup_new1 0).1) = 0 :=
    replaceFirst_zero isCommentB shallow_isComment _ _ _ hnew.1 (diff_elements_comment _ _)
  have h40 : countN isCommentB s4 = 0 :=
    appendToFirst_zero isCommentB shallow_isComment (fun cs => rfl) _ _ _ _ h30 (by rfl) h4
  have h50 : countN isCommentB s5 = 0 := by
    refine appendToFirst_zero isCommentB shallow_isComment (fun cs => rfl) _ _ _ _ h40 ?_ h5
    rw [countN]
    refine ?_
    have : isCommentB (Node.element "template" [("id", "wm-diff-old-head")]
        (match findTagN "head" (rucNode "old" (removeCommentsN a) 0).1 with
          | some h => if truthyN h = true then childrenN h else NodeList.nil
          | none => NodeList.nil)) = false := rfl
    rw [this, hohc]
    simp
  have h60 : countN isCommentB s6 = 0 :=
    appendToFirst_zero isCommentB shallow_isComment (fun cs => rfl) _ _ _ _ h50 (by rfl) h6
  rw [add_undiffable_content, reparse] at hout
  apply auc_comment_node _ _ _ _ h60 hout
  intro pr hpr
  rcases List.mem_append.mp hpr with hm | hm
  · exact holdvals pr hm
  · exact hnew.2 pr hm

/-- Witness for C9 at a concrete input pair carrying comments in both
documents. -/
theorem render_no_comments_witness :
    countN isCommentB
        ((html_diff_render
          (mkDoc [] [.comment "old head note", titleEl "T"] [] [.comment "x", .text "hello"])
          (mkDoc [] [] [] [.text "hello", .comment "y"])).getD (.text "")) = 0 := by
  have h := render_no_comments
    (mkDoc [] [.comment "old head note", titleEl "T"] [] [.comment "x", .text "hello"])
    (mkDoc [] [] [] [.text "hello", .comment "y"])
    ((html_diff_render
      (mkDoc [] [.comment "old head note", titleEl "T"] [] [.comment "x", .text "hello"])
      (mkDoc [] [] [] [.text "hello", .comment "y"])).getD (.text "")) (by decide)
  exact h

/-- The common length of a list with itself is its length. -/
theorem commonLen_self {α : Type} [DecidableEq α] (l : List α) :
    commonLen l l = l.length := by
  induction l with
  | nil => rfl
  | cons x xs ih => simp [commonLen, ih]

/-- The token diff of a token sequence with itself is one equal operation
per token. -/
theorem htmldiff_tokens_self (ts : List Tok) :
    htmldiff_tokens ts ts = ts.map DOp.eq := by
  rw [htmldiff_tokens]
  simp only [commonLen_self, List.length_map, List.take_length, List.drop_length,
    List.map_nil, List.reverse_nil, List.take_nil, List.drop_nil, List.append_nil,
    commonLen]

/-- Grouping a pure run of equal operations yields one equal run. -/
theorem groupRuns_eq (ts : List Tok) :
    groupRuns (ts.map DOp.eq) = if ts.isEmpty then [] else [(RKind.eqR, ts)] := by
  induction ts with
  | nil => rfl
  | cons t rest ih =>
    rw [List.map_cons, groupRuns, ih]
    cases rest with
    | nil => rfl
    | cons t2 rest2 => simp [dopKind, dopTok]

/-- Rendering a pure run of equal operations emits each token's items in
order. -/
theorem renderOps_eq (ts : List Tok) :
    renderOps (ts.map DOp.eq) = ts.flatMap tokItems := by
  rw [renderOps, groupRuns_eq]
  cases ts with
  | nil => rfl
  | cons t rest => simp [renderRun]

/-- The diff stream of a fragment with itself is the customized token
items followed by the leftover tags. -/
theorem htmldiffStream_self (ns : NodeList) :
    htmldiffStream ns ns
      = ((tokenize ns).1.map customize_token).flatMap tokItems ++ (tokenize ns).2 := by
  rw [htmldiffStream, htmldiff_tokens_self, renderOps_eq]

/-- Item counting distributes over append. -/
theorem pItems_append (p : Node → Bool) (l1 l2 : List Item) :
    pItems p (l1 ++ l2) = pItems p l1 + pItems p l2 := by
  simp [pItems, List.map_append, List.sum_append]

/-- Customization never changes the counted markup context of a
token. -/
theorem pItems_tokItems_customize (p : Node → Bool) (t : Tok) :
    pItems p (tokItems (customize_token t)) = pItems p (tokItems t) := by
  rw [customize_token]
  cases t.kind with
  | word => rfl
  | href => simp [tokItems, pItems_append, pItems]

/-- Customization never changes the counted markup context of a token
sequence. -/
theorem pItems_flatMap_customize (p : Node → Bool) (ts : List Tok) :
    pItems p ((ts.map customize_token).flatMap tokItems)
      = pItems p (ts.flatMap tokItems) := by
  induction ts with
  | nil => rfl
  | cons t rest ih =>
    simp only [List.map_cons, List.flatMap_cons, pItems_append, ih,
      pItems_tokItems_customize]

/-- Grouping into tokens preserves the counted start tags: the token
items and the leftover together carry exactly the start tags of the
accumulated state and the remaining stream. -/
theorem fixup_chunks_pItems (p : Node → Bool) (items buf : List Item) (acc : List Tok) :
    pItems p ((fixup_chunks items buf acc).1.flatMap tokItems
        ++ (fixup_chunks items buf acc).2)
      = pItems p (acc.reverse.flatMap tokItems) + pItems p buf + pItems p items := by
  induction items generalizing buf acc with
  | nil =>
    cases acc with
    | nil =>
      simp [fixup_chunks, pItems]
    | cons last acc2 =>
      rw [fixup_chunks]
      simp only [List.reverse_cons, List.flatMap_append, List.flatMap_cons,
        List.flatMap_nil, List.append_nil, pItems_append]
      rw [tokItems, tokItems]
      simp only [pItems_append]
      have : pItems p ([Item.textI (Tok.htmlWs { last with post_tags := last.post_tags ++ buf })])
          = 0 := rfl
      simp only [pItems, List.map_nil, List.sum_nil, List.map_cons, List.sum_cons,
        List.map_append, List.sum_append]
      omega
  | cons i rest ih =>
    cases i with
    | wordI w ws =>
      rw [fixup_chunks, ih]
      simp only [List.reverse_cons, List.flatMap_append, List.flatMap_cons,
        List.flatMap_nil, List.append_nil, pItems_append, tokItems]
      simp only [pItems, List.map_nil, List.sum_nil, List.map_cons, List.sum_cons,
        List.map_append, List.sum_append]
      omega
    | hrefI u =>
      rw [fixup_chunks, ih]
      simp only [List.reverse_cons, List.flatMap_append, List.flatMap_cons,
        List.flatMap_nil, List.append_nil, pItems_append, tokItems]
      simp only [pItems, List.map_nil, List.sum_nil, List.map_cons, List.sum_cons,
        List.map_append, List.sum_append]
      omega
    | openT t a =>
      rw [fixup_chunks, ih]
      simp only [pItems_append]
      simp only [pItems, List.map_cons, List.sum_cons, List.map_nil, List.sum_nil]
      omega
    | closeT t =>
      cases buf with
      | nil =>
        cases acc with
        | nil =>
          have hstep : fixup_chunks (Item.closeT t :: rest) [] ([] : List Tok)
              = fixup_chunks rest [Item.closeT t] [] := rfl
          rw [hstep, ih]
          simp only [pItems, List.map_cons, List.sum_cons, List.map_nil, List.sum_nil]
          omega
        | cons last acc2 =>
          have hstep : fixup_chunks (Item.closeT t :: rest) [] (last :: acc2)
              = fixup_chunks rest []
                  ({ last with post_tags := last.post_tags ++ [Item.closeT t] } :: acc2) := rfl
          rw [hstep, ih]
          simp only [List.reverse_cons, List.flatMap_append, List.flatMap_cons,
            List.flatMap_nil, List.append_nil, pItems_append, tokItems]
          simp only [pItems, List.map_nil, List.sum_nil, List.map_cons, List.sum_cons,
            List.map_append, List.sum_append]
          omega
      | cons b bs =>
        have hstep : fixup_chunks (Item.closeT t :: rest) (b :: bs) acc
            = fixup_chunks rest ((b :: bs) ++ [Item.closeT t]) acc := rfl
        rw [hstep, ih]
        simp only [pItems_append]
        simp only [pItems, List.map_cons, List.sum_cons, List.map_nil, List.sum_nil]
        omega
    | textI s =>
      rw [fixup_chunks, ih]
      simp only [pItems_append]
      simp only [pItems, List.map_cons, List.sum_cons, List.map_nil, List.sum_nil]
      omega

mutual

/-- Flattening a node carries exactly its deep shallow count into the
start tags (text and comment nodes never count). -/
theorem flatten_pItems_node (p : Node → Bool) (hp : shallowP p)
    (htext : ∀ s, p (.text s) = false) (hcom : ∀ s, p (.comment s) = false) (n : Node) :
    pItems p (flattenN n) = countN p n := by
  cases n with
  | element t a cs =>
    rw [flattenN, countN]
    have h1 := flatten_pItems_list p hp htext hcom cs
    have hhead : pShallow p t a = p (.element t a cs) := by
      rw [pShallow]; exact hp t a NodeList.nil cs
    have h2 : pItems p (if t = "a" then
          match lookupA a "href" with
          | some u => if u = "" then [] else [Item.hrefI u]
          | none => []
        else []) = 0 := by
      by_cases ht : t = "a"
      · rw [if_pos ht]
        cases lookupA a "href" with
        | none => rfl
        | some u =>
          by_cases hu : u = ""
          · simp [hu, pItems]
          · simp [hu, pItems]
      · rw [if_neg ht]; rfl
    simp only [pItems, List.map_cons, List.sum_cons, List.map_append, List.sum_append]
    simp only [pItems] at h1 h2
    simp only [hhead]
    simp only [List.map_cons, List.map_nil, List.sum_cons, List.sum_nil]
    omega
  | text s =>
    rw [flattenN, countN, htext]
    simp only [Bool.false_eq_true, if_false]
    have : ∀ acc cs2, pItems p (splitWordsAux acc cs2) = 0 := by
      intro acc cs2
      induction cs2 generalizing acc with
      | nil =>
        rw [splitWordsAux]
        cases acc.isEmpty <;> rfl
      | cons c rest2 ih =>
        rw [splitWordsAux]
        cases hw : c.isWhitespace
        · simp only [Bool.false_eq_true, if_false]
          exact ih (c :: acc)
        · simp only [if_true]
          cases ha : acc.isEmpty
          · simp only [Bool.false_eq_true, if_false]
            have := ih []
            simp only [pItems, List.map_cons, List.sum_cons] at *
            omega
          · simp only [if_true]
            exact ih []
    rw [splitWords]
    exact this [] s.toList
  | comment s =>
    rw [flattenN, countN, hcom]
    simp [pItems]

/-- List version of flatten_pItems_node. -/
theorem flatten_pItems_list (p : Node → Bool) (hp : shallowP p)
    (htext : ∀ s, p (.text s) = false) (hcom : ∀ s, p (.comment s) = false)
    (ns : NodeList) : pItems p (flattenL ns) = countL p ns := by
  cases ns with
  | nil => rfl
  | cons n ns =>
    rw [flattenL, countL, pItems_append, flatten_pItems_node p hp htext hcom n,
      flatten_pItems_list p hp htext hcom ns]

end

/-- The self diff stream of a fragment carries exactly the fragment's
deep shallow count in its start tags. -/
theorem htmldiffStream_self_pItems (p : Node → Bool) (hp : shallowP p)
    (htext : ∀ s, p (.text s) = false) (hcom : ∀ s, p (.comment s) = false)
    (ns : NodeList) : pItems p (htmldiffStream ns ns) = countL p ns := by
  rw [htmldiffStream_self, pItems_append, pItems_flatMap_customize, ← pItems_append]
  have hfx := fixup_chunks_pItems p (flattenL ns) [] []
  rw [tokenize, hfx]
  have h0 : pItems p ([] : List Item) = 0 := rfl
  simp only [List.reverse_nil, List.flatMap_nil, h0]
  rw [flatten_pItems_list p hp htext hcom ns]
  omega

/-- The self body diff of a fragment has no more marked nodes than the
fragment itself for any shallow predicate. -/
theorem htmldiff_self_le (p : Node → Bool) (hp : shallowP p)
    (htext : ∀ s, p (.text s) = false) (hcom : ∀ s, p (.comment s) = false)
    (ns : NodeList) : pNodes p (htmldiff ns ns) ≤ countL p ns := by
  rw [htmldiff, fixup_ins_del_tags]
  refine le_trans (stripFrag_le p htext _) ?_
  rw [rebuildItems, rebuildAux_count p hp htext]
  rw [htmldiffStream_self_pItems p hp htext hcom ns]
  simp [pNodes, pFrames]

/-- The title value read from an optional found title node (the value
branch structure of _get_title). -/
def titleVal (o : Option Node) : String :=
  match o with
  | none => ""
  | some t => if truthyN t then ((tagString t).getD "") else ""

/-- get_title reads the first found title element through titleVal. -/
theorem get_title_titleVal (n : Node) :
    get_title n = titleVal (findTagN "title" n) := rfl

/-- Child list consisting only of text nodes: the parsed shape of script,
style and title content, which the external parser stores as raw text. -/
def allTextL : NodeList → Bool
  | .nil => true
  | .cons (.text _) ns => allTextL ns
  | .cons (.element _ _ _) _ => false
  | .cons (.comment _) _ => false

mutual

/-- Raw-text elements (script, style, title) have only text children
everywhere in the tree: the shape the external parsing step guarantees. -/
def specialsN : Node → Bool
  | .element t _ cs =>
    (if isProtectedTag t || t == "title" then allTextL cs else true) && specialsL cs
  | .text _ => true
  | .comment _ => true

def specialsL : NodeList → Bool
  | .nil => true
  | .cons n ns => specialsN n && specialsL ns

end

/-- Comment removal keeps an all-text list intact. -/
theorem allText_rc (l : NodeList) (h : allTextL l = true) :
    removeCommentsL l = l := by
  cases l with
  | nil => rfl
  | cons n ns =>
    cases n with
    | text s => rw [removeCommentsL, allText_rc ns (by rwa [allTextL] at h)]
    | element t a cs => rw [allTextL] at h; simp at h
    | comment s => rw [allTextL] at h; simp at h

/-- No element hides in an all-text list, so tag search misses. -/
theorem allText_findTag (tg : String) (l : NodeList) (h : allTextL l = true) :
    findTagL tg l = none := by
  cases l with
  | nil => rfl
  | cons n ns =>
    cases n with
    | text s => exact allText_findTag tg ns (by rwa [allTextL] at h)
    | element t a cs => rw [allTextL] at h; simp at h
    | comment s => rw [allTextL] at h; simp at h

/-- Extraction is the identity on an all-text list and records nothing. -/
theorem allText_ruc (lbl : String) (l : NodeList) (i : Nat) (h : allTextL l = true) :
    rucList lbl l i = (l, i, []) := by
  cases l with
  | nil => rfl
  | cons n ns =>
    cases n with
    | text s =>
      have hr : rucNode lbl (Node.text s) i = (Node.text s, i, []) := rfl
      rw [rucList, hr, allText_ruc lbl ns i (by rwa [allTextL] at h)]
      rfl
    | element t a cs => rw [allTextL] at h; simp at h
    | comment s => rw [allTextL] at h; simp at h

mutual

/-- Comment removal preserves the raw-text shape of special elements. -/
theorem specials_rc_node (n : Node) (h : specialsN n = true) :
    specialsN (removeCommentsN n) = true := by
  cases n with
  | element t a cs =>
    rw [specialsN, Bool.and_eq_true] at h
    obtain ⟨h1, h2⟩ := h
    rw [removeCommentsN, specialsN, Bool.and_eq_true]
    by_cases hcond : (isProtectedTag t || t == "title") = true
    · rw [if_pos hcond] at h1
      rw [allText_rc cs h1]
      exact ⟨by rw [if_pos hcond]; exact h1, h2⟩
    · constructor
      · rw [if_neg hcond]
      · exact specials_rc_list cs h2
  | text s => rfl
  | comment s => rfl

/-- List version of specials_rc_node. -/
theorem specials_rc_list (ns : NodeList) (h : specialsL ns = true) :
    specialsL (removeCommentsL ns) = true := by
  cases ns with
  | nil => rfl
  | cons n ns =>
    rw [specialsL, Bool.and_eq_true] at h
    obtain ⟨h1, h2⟩ := h
    cases n with
    | text s =>
      rw [removeCommentsL, specialsL, Bool.and_eq_true]
      exact ⟨rfl, specials_rc_list ns h2⟩
    | comment s => rw [removeCommentsL]; exact specials_rc_list ns h2
    | element t a cs =>
      rw [removeCommentsL, specialsL, Bool.and_eq_true]
      exact ⟨specials_rc_node (.element t a cs) h1, specials_rc_list ns h2⟩

end

/-- A protected tag is never the title tag. -/
theorem protected_ne_title (t : String) (h : isProtectedTag t = true) :
    ¬ t = "title" := by
  intro heq
  subst heq
  rw [isProtectedTag] at h
  simp at h

mutual

/-- Extraction preserves the presence and read value of the first title
element: protected elements are raw text and never contain one, and a
title element's text-only children pass through extraction unchanged. -/
theorem ruc_title_node (lbl : String) (n : Node) (i : Nat) (hok : specialsN n = true) :
    (findTagN "title" (rucNode lbl n i).1).isSome = (findTagN "title" n).isSome
    ∧ titleVal (findTagN "title" (rucNode lbl n i).1)
        = titleVal (findTagN "title" n) := by
  cases n with
  | element t a cs =>
    rw [specialsN, Bool.and_eq_true] at hok
    obtain ⟨h1, h2⟩ := hok
    by_cases hprot : isProtectedTag t = true
    · have hneq : ¬ t = "title" := protected_ne_title t hprot
      have hat : allTextL cs = true := by
        rw [if_pos (by rw [hprot, Bool.true_or])] at h1
        exact h1
      have hL : findTagN "title" (rucNode lbl (.element t a cs) i).1 = none := by
        have hsh : (rucNode lbl (.element t a cs) i).1
            = placeholderFor t (lbl ++ "-" ++ toString i) := by
          rw [rucNode, if_pos hprot]
        rw [hsh, placeholderFor, findTagN, if_neg hneq]
        rfl
      have hR : findTagN "title" (.element t a cs) = none := by
        rw [findTagN, if_neg hneq]
        exact allText_findTag _ cs hat
      rw [hL, hR]
      exact ⟨rfl, rfl⟩
    · have hq : isProtectedTag t = false := by
        cases h' : isProtectedTag t with
        | true => exact absurd h' hprot
        | false => rfl
      by_cases ht : t = "title"
      · subst ht
        have hat : allTextL cs = true := by
          rw [if_pos (by rw [hq]; rfl)] at h1
          exact h1
        have hL : (rucNode lbl (.element "title" a cs) i).1 = .element "title" a cs := by
          rw [rucNode, hq]
          simp only [Bool.false_eq_true, if_false]
          rw [allText_ruc lbl cs i hat]
        rw [hL]
        exact ⟨rfl, rfl⟩
      · have hL : (rucNode lbl (.element t a cs) i).1
            = .element t a (rucList lbl cs i).1 := by
          rw [rucNode, hq]
          simp
        rw [hL, findTagN, if_neg ht, findTagN, if_neg ht]
        exact ruc_title_list lbl cs i h2
  | text s => exact ⟨rfl, rfl⟩
  | comment s => exact ⟨rfl, rfl⟩

/-- List version of ruc_title_node. -/
theorem ruc_title_list (lbl : String) (ns : NodeList) (i : Nat) (hok : specialsL ns = true) :
    (findTagL "title" (rucList lbl ns i).1).isSome = (findTagL "title" ns).isSome
    ∧ titleVal (findTagL "title" (rucList lbl ns i).1)
        = titleVal (findTagL "title" ns) := by
  cases ns with
  | nil => exact ⟨rfl, rfl⟩
  | cons n ns =>
    rw [specialsL, Bool.and_eq_true] at hok
    obtain ⟨h1, h2⟩ := hok
    have hn := ruc_title_node lbl n i h1
    have hl := ruc_title_list lbl ns (rucNode lbl n i).2.1 h2
    have hshape : (rucList lbl (.cons n ns) i).1
        = .cons (rucNode lbl n i).1 (rucList lbl ns (rucNode lbl n i).2.1).1 := rfl
    rw [hshape, findTagL, findTagL]
    cases hfn : findTagN "title" n with
    | none =>
      have hw : findTagN "title" (rucNode lbl n i).1 = none := by
        have h3 := hn.1
        rw [hfn] at h3
        cases h4 : findTagN "title" (rucNode lbl n i).1 with
        | none => rfl
        | some w => rw [h4] at h3; simp at h3
      simp only [hw, hfn]
      exact hl
    | some v =>
      have h3 := hn.1
      rw [hfn] at h3
      cases hfw : findTagN "title" (rucNode lbl n i).1 with
      | none => rw [hfw] at h3; simp at h3
      | some w =>
        simp only [hfw, hfn]
        have h4 := hn.2
        rw [hfw, hfn] at h4
        exact ⟨rfl, h4⟩

end

/-- The character self diff is a single equal operation (none on the
empty string). -/
theorem compute_dmp_diff_self (s : String) :
    compute_dmp_diff s s = dmpPiece 0 s.toList := by
  rw [compute_dmp_diff]
  simp only [commonLen_self, List.take_length, List.drop_length, List.reverse_nil,
    List.take_nil, List.drop_nil]
  simp [dmpPiece]

/-- Rendering the character self diff yields exactly the escaped text. -/
theorem diff_title_self_aux (s : String) :
    String.join ((compute_dmp_diff s s).map html_for_dmp_operation) = htmlEscape s := by
  rw [compute_dmp_diff_self, dmpPiece]
  by_cases he : s.toList.isEmpty = true
  · rw [if_pos he]
    obtain ⟨data⟩ := s
    have hd : data = [] := by simpa using he
    subst hd
    rfl
  · rw [if_neg he]
    rw [List.map_cons, List.map_nil]
    have hj : ∀ x : String, String.join [x] = x := by
      intro x
      obtain ⟨d⟩ := x
      rfl
    rw [hj, html_for_dmp_operation]
    norm_num

/-- A recorded key is found by table lookup. -/
theorem tblLookup_mem_isSome (tbl : List (String × Node)) (rid : String) (v : Node)
    (h : (rid, v) ∈ tbl) : (tblLookup tbl rid).isSome = true := by
  induction tbl with
  | nil => simp at h
  | cons pr rest ih =>
    obtain ⟨k, w⟩ := pr
    rw [tblLookup]
    by_cases hk : k = rid
    · rw [if_pos hk]; rfl
    · rw [if_neg hk]
      rcases List.mem_cons.mp h with hh | hh
      · exact absurd (congrArg Prod.fst hh).symm hk
      · exact ih hh

/-- Lookup succeeds in a concatenation when it succeeds on the left. -/
theorem tblLookup_append_left (t1 t2 : List (String × Node)) (rid : String)
    (h : (tblLookup t1 rid).isSome = true) :
    (tblLookup (t1 ++ t2) rid).isSome = true := by
  induction t1 with
  | nil => rw [tblLookup] at h; simp at h
  | cons pr rest ih =>
    obtain ⟨k, w⟩ := pr
    rw [List.cons_append, tblLookup]
    by_cases hk : k = rid
    · rw [if_pos hk]; rfl
    · rw [if_neg hk]
      rw [tblLookup, if_neg hk] at h
      exact ih h

/-- Lookup succeeds in a concatenation when it succeeds on the right. -/
theorem tblLookup_append_right (t1 t2 : List (String × Node)) (rid : String)
    (h : (tblLookup t2 rid).isSome = true) :
    (tblLookup (t1 ++ t2) rid).isSome = true := by
  induction t1 with
  | nil => simpa using h
  | cons pr rest ih =>
    obtain ⟨k, w⟩ := pr
    rw [List.cons_append, tblLookup]
    by_cases hk : k = rid
    · rw [if_pos hk]; rfl
    · rw [if_neg hk]
      exact ih

mutual

/-- Reinsertion succeeds on extraction output when the input carried no
reserved attribute and every recorded id is found in the table. -/
theorem auc_ruc_some_node (tbl : List (String × Node)) (lbl : String) (n : Node) (i : Nat)
    (hc : countN hasReservedB n = 0)
    (hsub : ∀ pr ∈ (rucNode lbl n i).2.2, (tblLookup tbl pr.1).isSome = true) :
    (aucNode tbl (rucNode lbl n i).1).isSome = true := by
  cases n with
  | element t a cs =>
    by_cases hprot : isProtectedTag t = true
    · have hsome : (tblLookup tbl (lbl ++ "-" ++ toString i)).isSome = true := by
        refine hsub ((lbl ++ "-" ++ toString i), .element t a cs) ?_
        rw [rucNode, if_pos hprot]
        simp
      obtain ⟨repl, hrepl⟩ := Option.isSome_iff_exists.mp hsome
      have hshape : (rucNode lbl (.element t a cs) i).1
          = placeholderFor t (lbl ++ "-" ++ toString i) := by
        rw [rucNode, if_pos hprot]
      rw [hshape, placeholderFor, aucNode]
      have hla : lookupA [("wm-diff-replacement", lbl ++ "-" ++ toString i)]
          "wm-diff-replacement" = some (lbl ++ "-" ++ toString i) := rfl
      simp only [hla, hrepl]
      cases htr : truthyN repl with
      | false => simp [htr]
      | true =>
        cases hst : strStarts (lbl ++ "-" ++ toString i) "old-" with
        | false => simp [htr, hst]
        | true => simp [htr, hst]
    · have hq : isProtectedTag t = false := by
        cases h' : isProtectedTag t with
        | true => exact absurd h' hprot
        | false => rfl
      have hshape : (rucNode lbl (.element t a cs) i).1
          = .element t a (rucList lbl cs i).1 := by
        rw [rucNode, hq]
        simp
      rw [countN] at hc
      have hla : lookupA a "wm-diff-replacement" = none := by
        cases h2 : lookupA a "wm-diff-replacement" with
        | none => rfl
        | some v => rw [hasReservedB, h2] at hc; simp at hc
      have hsub2 : ∀ pr ∈ (rucList lbl cs i).2.2, (tblLookup tbl pr.1).isSome = true := by
        intro pr hm
        refine hsub pr ?_
        have hsh2 : (rucNode lbl (.element t a cs) i).2.2 = (rucList lbl cs i).2.2 := by
          rw [rucNode, hq]
          simp
        rw [hsh2]
        exact hm
      have hl := auc_ruc_some_list tbl lbl cs i (by omega) hsub2
      obtain ⟨cs2, hcs2⟩ := Option.isSome_iff_exists.mp hl
      rw [hshape, aucNode]
      simp [hla, hcs2]
  | text s => rfl
  | comment s => rfl

/-- List version of auc_ruc_some_node. -/
theorem auc_ruc_some_list (tbl : List (String × Node)) (lbl : String) (ns : NodeList)
    (i : Nat) (hc : countL hasReservedB ns = 0)
    (hsub : ∀ pr ∈ (rucList lbl ns i).2.2, (tblLookup tbl pr.1).isSome = true) :
    (aucList tbl (rucList lbl ns i).1).isSome = true := by
  cases ns with
  | nil => rfl
  | cons n ns =>
    rw [countL] at hc
    have hshape1 : (rucList lbl (.cons n ns) i).1
        = .cons (rucNode lbl n i).1 (rucList lbl ns (rucNode lbl n i).2.1).1 := rfl
    have hshape2 : (rucList lbl (.cons n ns) i).2.2
        = (rucNode lbl n i).2.2 ++ (rucList lbl ns (rucNode lbl n i).2.1).2.2 := rfl
    rw [hshape2] at hsub
    rw [hshape1, aucList]
    have hn := auc_ruc_some_node tbl lbl n i (by omega)
      (fun pr hm => hsub pr (List.mem_append.mpr (Or.inl hm)))
    have hl := auc_ruc_some_list tbl lbl ns (rucNode lbl n i).2.1 (by omega)
      (fun pr hm => hsub pr (List.mem_append.mpr (Or.inr hm)))
    obtain ⟨n2, hn2⟩ := Option.isSome_iff_exists.mp hn
    obtain ⟨ns2, hns2⟩ := Option.isSome_iff_exists.mp hl
    simp [hn2, hns2]

end

mutual

/-- First-match rewriting misses entirely on a tree with no match. -/
theorem mapFirst_miss_node (p : Node → Bool) (g : Node → Node) (n : Node)
    (h : countN p n = 0) : mapFirstN p g n = (n, false) := by
  cases n with
  | element t a cs =>
    rw [countN] at h
    have hp : p (.element t a cs) = false := by
      cases h2 : p (.element t a cs) with
      | false => rfl
      | true => rw [h2] at h; simp at h
    rw [mapFirstN, hp]
    simp only [Bool.false_eq_true, if_false]
    rw [mapFirst_miss_list p g cs (by omega)]
  | text s =>
    rw [countN] at h
    have hp : p (.text s) = false := by
      cases h2 : p (.text s) with
      | false => rfl
      | true => rw [h2] at h; simp at h
    rw [mapFirstN, hp]
    simp
  | comment s =>
    rw [countN] at h
    have hp : p (.comment s) = false := by
      cases h2 : p (.comment s) with
      | false => rfl
      | true => rw [h2] at h; simp at h
    rw [mapFirstN, hp]
    simp

/-- List version of mapFirst_miss_node. -/
theorem mapFirst_miss_list (p : Node → Bool) (g : Node → Node) (ns : NodeList)
    (h : countL p ns = 0) : mapFirstL p g ns = (ns, false) := by
  cases ns with
  | nil => rfl
  | cons n ns =>
    rw [countL] at h
    have h1 : mapFirstN p g n = (n, false) := mapFirst_miss_node p g n (by omega)
    have h2 : mapFirstL p g ns = (ns, false) := mapFirst_miss_list p g ns (by omega)
    rw [mapFirstL, h1, h2]
    simp

end

/-- Reinsertion distributes over child-list concatenation when both
parts succeed. -/
theorem aucList_app_some (tbl : List (String × Node)) (l1 l2 r1 r2 : NodeList)
    (h1 : aucList tbl l1 = some r1) (h2 : aucList tbl l2 = some r2) :
    aucList tbl (NodeList.app l1 l2) = some (NodeList.app r1 r2) := by
  cases l1 with
  | nil =>
    rw [aucList] at h1
    injection h1 with h1
    subst h1
    rw [NodeList.app, h2, NodeList.app]
  | cons n ns =>
    rw [aucList] at h1
    cases hn : aucNode tbl n with
    | none => rw [hn] at h1; simp at h1
    | some n2 =>
      simp only [hn] at h1
      cases hns : aucList tbl ns with
      | none => simp [hns] at h1
      | some ns2 =>
        simp only [hns] at h1
        injection h1 with h1
        subst h1
        rw [NodeList.app, aucList]
        simp only [hn, aucList_app_some tbl ns l2 ns2 r2 hns h2]
        rfl

/-- Flattening child-list concatenation to ordinary lists. -/
theorem toL_app (l m : NodeList) :
    NodeList.toL (NodeList.app l m) = NodeList.toL l ++ NodeList.toL m := by
  cases l with
  | nil => rfl
  | cons n ns =>
    rw [NodeList.app, NodeList.toL, NodeList.toL, toL_app ns m]
    rfl

mutual

/-- Extraction never introduces an element of an unprotected tag:
placeholders reuse the protected tag itself. -/
theorem ruc_tagIs_node (tg : String) (hprot : isProtectedTag tg = false)
    (lbl : String) (n : Node) (i : Nat) (h : countN (tagIs tg) n = 0) :
    countN (tagIs tg) (rucNode lbl n i).1 = 0 := by
  cases n with
  | element t a cs =>
    by_cases hp : isProtectedTag t = true
    · have hshape : (rucNode lbl (.element t a cs) i).1
          = placeholderFor t (lbl ++ "-" ++ toString i) := by
        rw [rucNode, if_pos hp]
      rw [hshape, placeholderFor, countN]
      have hneq : ¬ t = tg := by
        intro heq
        subst heq
        rw [hp] at hprot
        simp at hprot
      rw [show tagIs tg (Node.element t [("wm-diff-replacement", lbl ++ "-" ++ toString i)]
        (.cons (.text ("$[" ++ (lbl ++ "-" ++ toString i) ++ "]$")) .nil)) = (t == tg) from rfl]
      simp [hneq, countL, countN, tagIs]
    · have hq : isProtectedTag t = false := by
        cases h2 : isProtectedTag t with
        | true => exact absurd h2 hp
        | false => rfl
      have hshape : (rucNode lbl (.element t a cs) i).1
          = .element t a (rucList lbl cs i).1 := by
        rw [rucNode, hq]
        simp
      rw [countN] at h
      rw [hshape, countN]
      have := ruc_tagIs_list tg hprot lbl cs i (by omega)
      rw [show tagIs tg (Node.element t a (rucList lbl cs i).1) = tagIs tg (.element t a cs) from rfl]
      omega
  | text s => exact h
  | comment s => exact h

/-- List version of ruc_tagIs_node. -/
theorem ruc_tagIs_list (tg : String) (hprot : isProtectedTag tg = false)
    (lbl : String) (ns : NodeList) (i : Nat) (h : countL (tagIs tg) ns = 0) :
    countL (tagIs tg) (rucList lbl ns i).1 = 0 := by
  cases ns with
  | nil => exact h
  | cons n ns =>
    rw [countL] at h
    have hshape : (rucList lbl (.cons n ns) i).1
        = .cons (rucNode lbl n i).1 (rucList lbl ns (rucNode lbl n i).2.1).1 := rfl
    rw [hshape, countL]
    have h1 := ruc_tagIs_node tg hprot lbl n i (by omega)
    have h2 := ruc_tagIs_list tg hprot lbl ns (rucNode lbl n i).2.1 (by omega)
    omega

end

/-- Extraction on a standard document whose body is free of protected
elements: the head children are extracted, the body is untouched, and the
table is the head table. -/
theorem ruc_doc_shape (lbl : String) (ra ha ba : List (String × String)) (hs bs : NodeList)
    (hbs : countL isProtectedB bs = 0) :
    rucNode lbl (.element "html" ra (.cons (.element "head" ha hs)
        (.cons (.element "body" ba bs) .nil))) 0
      = (.element "html" ra (.cons (.element "head" ha (rucList lbl hs 0).1)
            (.cons (.element "body" ba bs) .nil)),
         (rucList lbl hs 0).2.1,
         (rucList lbl hs 0).2.2) := by
  have hb : rucList lbl bs (rucList lbl hs 0).2.1 = (bs, (rucList lbl hs 0).2.1, []) :=
    ruc_clean_list lbl bs _ hbs
  have hstep : rucNode lbl (.element "html" ra (.cons (.element "head" ha hs)
        (.cons (.element "body" ba bs) .nil))) 0
      = (.element "html" ra (.cons (.element "head" ha (rucList lbl hs 0).1)
            (.cons (.element "body" ba (rucList lbl bs (rucList lbl hs 0).2.1).1) .nil)),
         (rucList lbl bs (rucList lbl hs 0).2.1).2.1,
         (rucList lbl hs 0).2.2 ++ ((rucList lbl bs (rucList lbl hs 0).2.1).2.2 ++ [])) := rfl
  rw [hstep, hb]
  simp

/-- Projection of ruc_doc_shape: the extracted tree. -/
theorem ruc_doc_shape1 (lbl : String) (ra ha ba : List (String × String)) (hs bs : NodeList)
    (hbs : countL isProtectedB bs = 0) :
    (rucNode lbl (.element "html" ra (.cons (.element "head" ha hs)
        (.cons (.element "body" ba bs) .nil))) 0).1
      = .element "html" ra (.cons (.element "head" ha (rucList lbl hs 0).1)
          (.cons (.element "body" ba bs) .nil)) := by
  rw [ruc_doc_shape lbl ra ha ba hs bs hbs]

/-- Projection of ruc_doc_shape: the replacement table. -/
theorem ruc_doc_shape2 (lbl : String) (ra ha ba : List (String × String)) (hs bs : NodeList)
    (hbs : countL isProtectedB bs = 0) :
    (rucNode lbl (.element "html" ra (.cons (.element "head" ha hs)
        (.cons (.element "body" ba bs) .nil))) 0).2.2
      = (rucList lbl hs 0).2.2 := by
  rw [ruc_doc_shape lbl ra ha ba hs bs hbs]

/-- Body search on a standard document finds the body element once the
head subtree is body-free. -/
theorem findBody_doc (ra ha ba : List (String × String)) (hs bs : NodeList)
    (hh : countL (tagIs "body") hs = 0) :
    findTagN "body" (.element "html" ra (.cons (.element "head" ha hs)
        (.cons (.element "body" ba bs) .nil)))
      = some (.element "body" ba bs) := by
  have h1 : findTagN "body" (.element "head" ha hs) = none := by
    refine findTag_none_node _ _ ?_
    rw [countN, show tagIs "body" (.element "head" ha hs) = false from rfl]
    simpa using hh
  rw [findTagN, if_neg (by decide), findTagL]
  simp only [h1]
  rfl

/-- Title search on a standard document reduces to the head children when
the second child holds no title. -/
theorem findTitle_doc (ra ha : List (String × String)) (hs : NodeList) (other : Node)
    (hother : findTagN "title" other = none) :
    findTagN "title" (.element "html" ra (.cons (.element "head" ha hs)
        (.cons other .nil)))
      = findTagL "title" hs := by
  have hhead : findTagN "title" (.element "head" ha hs) = findTagL "title" hs := by
    rw [findTagN, if_neg (by decide)]
  rw [findTagN, if_neg (by decide), findTagL, hhead]
  cases hfh : findTagL "title" hs with
  | some v => rfl
  | none =>
    show findTagL "title" (.cons other .nil) = none
    rw [findTagL]
    simp only [hother]
    rfl

/-- Replacing the body of a standard document whose head subtree is
body-free rewrites exactly the body child. -/
theorem replaceBody_doc (ra ha ba : List (String × String)) (hs bs : NodeList)
    (r : Node) (hh : countL (tagIs "body") hs = 0) :
    replaceFirstN "body" r (.element "html" ra (.cons (.element "head" ha hs)
        (.cons (.element "body" ba bs) .nil)))
      = .element "html" ra (.cons (.element "head" ha hs) (.cons r .nil)) := by
  have hmh : mapFirstN (tagIs "body") (fun _ => r) (.element "head" ha hs)
      = (.element "head" ha hs, false) := by
    refine mapFirst_miss_node _ _ _ ?_
    rw [countN, show tagIs "body" (.element "head" ha hs) = false from rfl]
    simpa using hh
  rw [replaceFirstN, mapFirstN,
    show tagIs "body" (.element "html" ra (.cons (.element "head" ha hs)
      (.cons (.element "body" ba bs) .nil))) = false from rfl]
  simp only [Bool.false_eq_true, if_false]
  rw [mapFirstL]
  simp only [hmh]
  rw [mapFirstL, mapFirstN,
    show tagIs "body" (.element "body" ba bs) = true from rfl]
  simp

/-- Appending a child to the head of a standard document extends the head
child list at the end. -/
theorem appendHead_doc (ra ha : List (String × String)) (hs : NodeList)
    (other child : Node) :
    appendToFirstN "head" child (.element "html" ra (.cons (.element "head" ha hs)
        (.cons other .nil)))
      = some (.element "html" ra (.cons (.element "head" ha
          (NodeList.app hs (.cons child .nil))) (.cons other .nil))) := rfl

/-- Document with a body script: the extraction placeholders of the two
sides carry different ids, so their word tokens differ and the self diff
is not clean. -/
def c2ScriptDoc : Node :=
  mkDoc [] [] [] [.element "script" [] (.cons (.text "var x = 1;") .nil)]

/-- Document with a non-empty title. -/
def c2TitleDoc : Node := mkDoc [] [titleEl "News"] [] [.text "hi"]

/-- Document that smuggles the reserved placeholder attribute. -/
def c2ReservedDoc : Node :=
  mkDoc [] [] [] [.element "div" [("wm-diff-replacement", "zzz")] .nil]

/-- Title-diff metadata element carrying the given rendered content. -/
def isTitleMetaWith (s : String) (n : Node) : Bool :=
  match n with
  | .element t a _ =>
    t == "meta" && lookupA a "name" == some "wm-diff-title"
      && lookupA a "content" == some s
  | _ => false

/-- C2 counterexample.  The self render of a document with a body script
has two insertion/deletion markers in its body (the old and new extraction
placeholders get different ids and therefore diff as a delete plus an
insert); the self render of a document titled News carries the rendered
title diff News, not the empty string; and the self render of a document
that smuggles the reserved placeholder attribute aborts with no output at
all. -/
theorem render_self_not_clean_cex :
    ((html_diff_render c2ScriptDoc c2ScriptDoc).bind (findTagN "body")).map
        (countN isInsDelB) = some 2
    ∧ (html_diff_render c2TitleDoc c2TitleDoc).map (countN (isTitleMetaWith "")) = some 0
    ∧ (html_diff_render c2TitleDoc c2TitleDoc).map (countN (isTitleMetaWith "News")) = some 1
    ∧ html_diff_render c2ReservedDoc c2ReservedDoc = none :=
  ⟨rfl, rfl, rfl, rfl⟩


/-- C2 amended.  Self-render cleanliness for standard parsed documents
whose body is free of script/style elements, of literal ins/del elements
and of body/title misplacements, whose tree carries no reserved
placeholder attribute, and whose raw-text elements (script, style, title)
hold only text, as the parser guarantees; head scripts and styles are
allowed.  The render of such a document against itself succeeds; its body
is the new body refilled with the self diff of the body children and
contains zero insertion or deletion markers; and the head carries the
title-diff metadata element whose content is exactly the HTML-escaped
title text of the comment-stripped document, hence empty exactly when the
title is empty.  (By the counterexample, a body script, a non-empty
title, or a smuggled reserved attribute each break the unconditional
claim.) -/
theorem render_self_no_markers (ra ha ba : List (String × String)) (hsl bsl : NodeList)
    (hres : countN hasReservedB (.element "html" ra (.cons (.element "head" ha hsl)
        (.cons (.element "body" ba bsl) .nil))) = 0)
    (hprot : countL isProtectedB bsl = 0)
    (hmark : countL isInsDelB bsl = 0)
    (hbody : countL (tagIs "body") hsl = 0)
    (htitle : countL (tagIs "title") bsl = 0)
    (hspec : specialsL hsl = true) :
    ∃ hs3, html_diff_render
        (.element "html" ra (.cons (.element "head" ha hsl)
          (.cons (.element "body" ba bsl) .nil)))
        (.element "html" ra (.cons (.element "head" ha hsl)
          (.cons (.element "body" ba bsl) .nil)))
      = some (.element "html" ra (.cons (.element "head" ha hs3)
          (.cons (.element "body" ba (NodeList.ofL
            (htmldiff (removeCommentsL bsl) (removeCommentsL bsl)))) .nil)))
      ∧ countN isInsDelB (.element "body" ba (NodeList.ofL
          (htmldiff (removeCommentsL bsl) (removeCommentsL bsl)))) = 0
      ∧ (Node.element "meta" [("content", htmlEscape (get_title (removeCommentsN
            (.element "html" ra (.cons (.element "head" ha hsl)
              (.cons (.element "body" ba bsl) .nil)))))),
          ("name", "wm-diff-title")] .nil) ∈ NodeList.toL hs3 := by
  -- shallowness of the counting predicates
  have hshProt : shallowP isProtectedB := fun t a cs cs2 => rfl
  have hshIns : shallowP isInsDelB := fun t a cs cs2 => rfl
  have hshTag : ∀ tg, shallowP (tagIs tg) := fun tg t a cs cs2 => rfl
  -- attribute cleanliness pieces of hres
  have hcount_attr : ∀ (t : String) (a : List (String × String)) (cs : NodeList),
      countN hasReservedB (.element t a cs) = 0 →
        lookupA a "wm-diff-replacement" = none := by
    intro t a cs h
    rw [countN] at h
    cases h2 : lookupA a "wm-diff-replacement" with
    | none => rfl
    | some v =>
      rw [show hasReservedB (.element t a cs)
          = (lookupA a "wm-diff-replacement").isSome from rfl, h2] at h
      simp at h
  have hresHead : countN hasReservedB (.element "head" ha hsl) = 0 := by
    simp only [countN, countL] at hres ⊢
    omega
  have hresBody : countN hasReservedB (.element "body" ba bsl) = 0 := by
    simp only [countN, countL] at hres ⊢
    omega
  have hra : lookupA ra "wm-diff-replacement" = none := hcount_attr _ _ _ hres
  have hha : lookupA ha "wm-diff-replacement" = none := hcount_attr _ _ _ hresHead
  have hba : lookupA ba "wm-diff-replacement" = none := hcount_attr _ _ _ hresBody
  have hresHs : countL hasReservedB hsl = 0 := by
    simp only [countN] at hresHead
    omega
  have hresBs : countL hasReservedB bsl = 0 := by
    simp only [countN] at hresBody
    omega
  -- cleanliness after comment removal
  have hresHs1 : countL hasReservedB (removeCommentsL hsl) = 0 := by
    have h := removeComments_le_list hasReservedB shallow_hasReserved hsl
    omega
  have hprot1 : countL isProtectedB (removeCommentsL bsl) = 0 := by
    have h := removeComments_le_list isProtectedB hshProt bsl
    omega
  have hmark1 : countL isInsDelB (removeCommentsL bsl) = 0 := by
    have h := removeComments_le_list isInsDelB hshIns bsl
    omega
  have hbody1 : countL (tagIs "body") (removeCommentsL hsl) = 0 := by
    have h := removeComments_le_list (tagIs "body") (hshTag "body") hsl
    omega
  have htitle1 : countL (tagIs "title") (removeCommentsL bsl) = 0 := by
    have h := removeComments_le_list (tagIs "title") (hshTag "title") bsl
    omega
  have hspec1 : specialsL (removeCommentsL hsl) = true := specials_rc_list hsl hspec
  have hresBs1 : countL hasReservedB (removeCommentsL bsl) = 0 := by
    have h := removeComments_le_list hasReservedB shallow_hasReserved bsl
    omega
  -- head lists are body-free after extraction
  have hhOld : countL (tagIs "body") (rucList "old" (removeCommentsL hsl) 0).1 = 0 :=
    ruc_tagIs_list "body" rfl "old" (removeCommentsL hsl) 0 hbody1
  have hhNew : countL (tagIs "body") (rucList "new" (removeCommentsL hsl) 0).1 = 0 :=
    ruc_tagIs_list "body" rfl "new" (removeCommentsL hsl) 0 hbody1
  -- reinsertion succeeds on both extracted head lists
  have hsubNew : ∀ pr ∈ (rucList "new" (removeCommentsL hsl) 0).2.2,
      (tblLookup ((rucList "old" (removeCommentsL hsl) 0).2.2
        ++ (rucList "new" (removeCommentsL hsl) 0).2.2) pr.1).isSome = true :=
    fun pr hm => tblLookup_append_right _ _ _ (tblLookup_mem_isSome _ _ _ hm)
  have hsubOld : ∀ pr ∈ (rucList "old" (removeCommentsL hsl) 0).2.2,
      (tblLookup ((rucList "old" (removeCommentsL hsl) 0).2.2
        ++ (rucList "new" (removeCommentsL hsl) 0).2.2) pr.1).isSome = true :=
    fun pr hm => tblLookup_append_left _ _ _ (tblLookup_mem_isSome _ _ _ hm)
  obtain ⟨rNewHead, hrNewHead⟩ := Option.isSome_iff_exists.mp
    (auc_ruc_some_list _ "new" (removeCommentsL hsl) 0 hresHs1 hsubNew)
  obtain ⟨rOldHead, hrOldHead⟩ := Option.isSome_iff_exists.mp
    (auc_ruc_some_list _ "old" (removeCommentsL hsl) 0 hresHs1 hsubOld)
  -- title values survive extraction
  have htOld := ruc_title_list "old" (removeCommentsL hsl) 0 hspec1
  have htNew := ruc_title_list "new" (removeCommentsL hsl) 0 hspec1
  have hotherOld : findTagN "title" (.element "body" ba (removeCommentsL bsl)) = none := by
    refine findTag_none_node _ _ ?_
    rw [countN, show tagIs "title" (.element "body" ba (removeCommentsL bsl)) = false from rfl]
    simpa using htitle1
  have hDBtitle : findTagN "title" (.element "body" ba (NodeList.ofL
      (htmldiff (removeCommentsL bsl) (removeCommentsL bsl)))) = none := by
    refine findTag_none_node _ _ ?_
    rw [countN, countL_ofL, show tagIs "title" (.element "body" ba (NodeList.ofL
      (htmldiff (removeCommentsL bsl) (removeCommentsL bsl)))) = false from rfl]
    have hle := htmldiff_self_le (tagIs "title") (hshTag "title")
      (fun s => rfl) (fun s => rfl) (removeCommentsL bsl)
    simp only [Bool.false_eq_true, if_false]
    omega
  have hgOld : get_title (.element "html" ra
      (.cons (.element "head" ha (rucList "old" (removeCommentsL hsl) 0).1)
        (.cons (.element "body" ba (removeCommentsL bsl)) .nil)))
      = titleVal (findTagL "title" (removeCommentsL hsl)) := by
    rw [get_title_titleVal,
      findTitle_doc ra ha (rucList "old" (removeCommentsL hsl) 0).1
        (.element "body" ba (removeCommentsL bsl)) hotherOld]
    exact htOld.2
  have hgNew : get_title (.element "html" ra
      (.cons (.element "head" ha (rucList "new" (removeCommentsL hsl) 0).1)
        (.cons (.element "body" ba (NodeList.ofL
          (htmldiff (removeCommentsL bsl) (removeCommentsL bsl)))) .nil)))
      = titleVal (findTagL "title" (removeCommentsL hsl)) := by
    rw [get_title_titleVal,
      findTitle_doc ra ha (rucList "new" (removeCommentsL hsl) 0).1
        (.element "body" ba (NodeList.ofL
          (htmldiff (removeCommentsL bsl) (removeCommentsL bsl)))) hDBtitle]
    exact htNew.2
  have hdt : diff_title
      (.element "html" ra
        (.cons (.element "head" ha (rucList "old" (removeCommentsL hsl) 0).1)
          (.cons (.element "body" ba (removeCommentsL bsl)) .nil)))
      (.element "html" ra
        (.cons (.element "head" ha (rucList "new" (removeCommentsL hsl) 0).1)
          (.cons (.element "body" ba (NodeList.ofL
            (htmldiff (removeCommentsL bsl) (removeCommentsL bsl)))) .nil)))
      = htmlEscape (titleVal (findTagL "title" (removeCommentsL hsl))) := by
    rw [diff_title, hgOld, hgNew, diff_title_self_aux]
  have hgX : get_title (removeCommentsN (.element "html" ra (.cons (.element "head" ha hsl)
        (.cons (.element "body" ba bsl) .nil))))
      = titleVal (findTagL "title" (removeCommentsL hsl)) := by
    rw [show removeCommentsN (.element "html" ra (.cons (.element "head" ha hsl)
        (.cons (.element "body" ba bsl) .nil)))
      = .element "html" ra (.cons (.element "head" ha (removeCommentsL hsl))
          (.cons (.element "body" ba (removeCommentsL bsl)) .nil)) from rfl]
    rw [get_title_titleVal,
      findTitle_doc ra ha (removeCommentsL hsl)
        (.element "body" ba (removeCommentsL bsl)) hotherOld]
  -- reinsertion of the assembled head
  have hm1 : aucList ((rucList "old" (removeCommentsL hsl) 0).2.2
        ++ (rucList "new" (removeCommentsL hsl) 0).2.2)
      (.cons (.element "meta" [("content",
          htmlEscape (titleVal (findTagL "title" (removeCommentsL hsl)))),
        ("name", "wm-diff-title")] .nil) .nil)
      = some (.cons (.element "meta" [("content",
          htmlEscape (titleVal (findTagL "title" (removeCommentsL hsl)))),
        ("name", "wm-diff-title")] .nil) .nil) :=
    auc_id_list _ _ rfl
  have htpl : aucNode ((rucList "old" (removeCommentsL hsl) 0).2.2
        ++ (rucList "new" (removeCommentsL hsl) 0).2.2)
      (.element "template" [("id", "wm-diff-old-head")]
        (rucList "old" (removeCommentsL hsl) 0).1)
      = some (.element "template" [("id", "wm-diff-old-head")] rOldHead) := by
    rw [aucNode]
    simp only [show lookupA [("id", "wm-diff-old-head")] "wm-diff-replacement"
      = (none : Option String) from rfl, hrOldHead]
  have htplL : aucList ((rucList "old" (removeCommentsL hsl) 0).2.2
        ++ (rucList "new" (removeCommentsL hsl) 0).2.2)
      (.cons (.element "template" [("id", "wm-diff-old-head")]
        (rucList "old" (removeCommentsL hsl) 0).1) .nil)
      = some (.cons (.element "template" [("id", "wm-diff-old-head")] rOldHead) .nil) := by
    rw [aucList]
    simp only [htpl]
    rfl
  have hstyL : aucList ((rucList "old" (removeCommentsL hsl) 0).2.2
        ++ (rucList "new" (removeCommentsL hsl) 0).2.2)
      (.cons (.element "style" [("type", "text/css"), ("id", "wm-diff-style")]
        (.cons (.text wmDiffCss) .nil)) .nil)
      = some (.cons (.element "style" [("type", "text/css"), ("id", "wm-diff-style")]
        (.cons (.text wmDiffCss) .nil)) .nil) :=
    auc_id_list _ _ rfl
  have happ1 := aucList_app_some _ _ _ _ _ hrNewHead hm1
  have happ2 := aucList_app_some _ _ _ _ _ happ1 htplL
  have happ3 := aucList_app_some _ _ _ _ _ happ2 hstyL
  have hhd : aucNode ((rucList "old" (removeCommentsL hsl) 0).2.2
        ++ (rucList "new" (removeCommentsL hsl) 0).2.2)
      (.element "head" ha (NodeList.app (NodeList.app (NodeList.app
          (rucList "new" (removeCommentsL hsl) 0).1
          (.cons (.element "meta" [("content",
              htmlEscape (titleVal (findTagL "title" (removeCommentsL hsl)))),
            ("name", "wm-diff-title")] .nil) .nil))
          (.cons (.element "template" [("id", "wm-diff-old-head")]
            (rucList "old" (removeCommentsL hsl) 0).1) .nil))
          (.cons (.element "style" [("type", "text/css"), ("id", "wm-diff-style")]
            (.cons (.text wmDiffCss) .nil)) .nil)))
      = some (.element "head" ha (NodeList.app (NodeList.app (NodeList.app
          rNewHead
          (.cons (.element "meta" [("content",
              htmlEscape (titleVal (findTagL "title" (removeCommentsL hsl)))),
            ("name", "wm-diff-title")] .nil) .nil))
          (.cons (.element "template" [("id", "wm-diff-old-head")] rOldHead) .nil))
          (.cons (.element "style" [("type", "text/css"), ("id", "wm-diff-style")]
            (.cons (.text wmDiffCss) .nil)) .nil))) := by
    rw [aucNode]
    simp only [hha, happ3]
  have hDBres : countN hasReservedB (.element "body" ba (NodeList.ofL
      (htmldiff (removeCommentsL bsl) (removeCommentsL bsl)))) = 0 := by
    rw [countN, countL_ofL, show hasReservedB (.element "body" ba (NodeList.ofL
      (htmldiff (removeCommentsL bsl) (removeCommentsL bsl))))
        = (lookupA ba "wm-diff-replacement").isSome from rfl, hba]
    have hle := htmldiff_self_le hasReservedB shallow_hasReserved
      (fun s => rfl) (fun s => rfl) (removeCommentsL bsl)
    simp only [Option.isSome_none, Bool.false_eq_true, if_false]
    omega
  have hbd : aucNode ((rucList "old" (removeCommentsL hsl) 0).2.2
        ++ (rucList "new" (removeCommentsL hsl) 0).2.2)
      (.element "body" ba (NodeList.ofL
        (htmldiff (removeCommentsL bsl) (removeCommentsL bsl))))
      = some (.element "body" ba (NodeList.ofL
        (htmldiff (removeCommentsL bsl) (removeCommentsL bsl)))) :=
    auc_id_node _ _ hDBres
  have hbl : aucList ((rucList "old" (removeCommentsL hsl) 0).2.2
        ++ (rucList "new" (removeCommentsL hsl) 0).2.2)
      (.cons (.element "body" ba (NodeList.ofL
        (htmldiff (removeCommentsL bsl) (removeCommentsL bsl)))) .nil)
      = some (.cons (.element "body" ba (NodeList.ofL
        (htmldiff (removeCommentsL bsl) (removeCommentsL bsl)))) .nil) := by
    rw [aucList]
    simp only [hbd]
    rfl
  refine ⟨NodeList.app (NodeList.app (NodeList.app
      rNewHead
      (.cons (.element "meta" [("content",
          htmlEscape (titleVal (findTagL "title" (removeCommentsL hsl)))),
        ("name", "wm-diff-title")] .nil) .nil))
      (.cons (.element "template" [("id", "wm-diff-old-head")] rOldHead) .nil))
      (.cons (.element "style" [("type", "text/css"), ("id", "wm-diff-style")]
        (.cons (.text wmDiffCss) .nil)) .nil), ?_, ?_, ?_⟩
  · -- the render equation
    simp only [html_diff_render, bind, Option.bind_eq_some]
    refine ⟨.element "html" ra (.cons (.element "head" ha (removeCommentsL hsl))
      (.cons (.element "body" ba (removeCommentsL bsl)) .nil)), rfl, ?_⟩
    simp only [remove_undiffable_content]
    rw [show removeCommentsN (.element "html" ra (.cons (.element "head" ha hsl)
        (.cons (.element "body" ba bsl) .nil)))
      = .element "html" ra (.cons (.element "head" ha (removeCommentsL hsl))
          (.cons (.element "body" ba (removeCommentsL bsl)) .nil)) from rfl]
    rw [ruc_doc_shape1 "old" ra ha ba (removeCommentsL hsl) (removeCommentsL bsl) hprot1,
      ruc_doc_shape2 "old" ra ha ba (removeCommentsL hsl) (removeCommentsL bsl) hprot1,
      ruc_doc_shape1 "new" ra ha ba (removeCommentsL hsl) (removeCommentsL bsl) hprot1,
      ruc_doc_shape2 "new" ra ha ba (removeCommentsL hsl) (removeCommentsL bsl) hprot1]
    refine ⟨.element "body" ba (removeCommentsL bsl),
      findBody_doc ra ha ba _ (removeCommentsL bsl) hhNew, ?_⟩
    rw [findBody_doc ra ha ba _ (removeCommentsL bsl) hhOld,
      findBody_doc ra ha ba _ (removeCommentsL bsl) hhNew]
    rw [show diff_elements (some (.element "body" ba (removeCommentsL bsl)))
        (some (.element "body" ba (removeCommentsL bsl)))
      = .element "body" ba (NodeList.ofL
          (htmldiff (removeCommentsL bsl) (removeCommentsL bsl))) from rfl]
    rw [replaceBody_doc ra ha ba _ (removeCommentsL bsl) _ hhNew]
    rw [hdt]
    rw [show (match findTagN "head" (Node.element "html" ra
          (NodeList.cons (Node.element "head" ha (rucList "old" (removeCommentsL hsl) 0).1)
            (NodeList.cons (Node.element "body" ba (removeCommentsL bsl)) NodeList.nil))) with
        | some h => if truthyN h = true then childrenN h else NodeList.nil
        | none => NodeList.nil) = (rucList "old" (removeCommentsL hsl) 0).1 from rfl]
    refine ⟨_, appendHead_doc ra ha _ _ _, ?_⟩
    refine ⟨_, appendHead_doc ra ha _ _ _, ?_⟩
    refine ⟨_, appendHead_doc ra ha _ _ _, ?_⟩
    rw [reparse, add_undiffable_content, aucNode]
    simp only [hra]
    rw [aucList]
    simp only [hhd, hbl]
  · -- no markers in the diffed body
    rw [countN, countL_ofL, show isInsDelB (.element "body" ba (NodeList.ofL
      (htmldiff (removeCommentsL bsl) (removeCommentsL bsl)))) = false from rfl]
    have hle := htmldiff_self_le isInsDelB hshIns
      (fun s => rfl) (fun s => rfl) (removeCommentsL bsl)
    simp only [Bool.false_eq_true, if_false]
    omega
  · -- the title metadata element is present with the escaped title text
    rw [hgX, toL_app, toL_app, toL_app]
    refine List.mem_append.mpr (Or.inl (List.mem_append.mpr (Or.inl
      (List.mem_append.mpr (Or.inr ?_)))))
    simp [NodeList.toL]

/-- C2 witness: the amended theorem applied to a concrete document with a
head script, a head title and a plain text body. -/
theorem render_self_no_markers_witness :
    ∃ hs3, html_diff_render
        (.element "html" [] (.cons (.element "head" []
            (.cons (.element "script" [] (.cons (.text "var a = 1;") .nil))
              (.cons (.element "title" [] (.cons (.text "T") .nil)) .nil)))
          (.cons (.element "body" [] (.cons (.text "hello") .nil)) .nil)))
        (.element "html" [] (.cons (.element "head" []
            (.cons (.element "script" [] (.cons (.text "var a = 1;") .nil))
              (.cons (.element "title" [] (.cons (.text "T") .nil)) .nil)))
          (.cons (.element "body" [] (.cons (.text "hello") .nil)) .nil)))
      = some (.element "html" [] (.cons (.element "head" [] hs3)
          (.cons (.element "body" [] (NodeList.ofL
            (htmldiff (removeCommentsL (.cons (.text "hello") .nil))
              (removeCommentsL (.cons (.text "hello") .nil))))) .nil)))
      ∧ countN isInsDelB (.element "body" [] (NodeList.ofL
          (htmldiff (removeCommentsL (.cons (.text "hello") .nil))
            (removeCommentsL (.cons (.text "hello") .nil))))) = 0
      ∧ (Node.element "meta" [("content", htmlEscape (get_title (removeCommentsN
            (.element "html" [] (.cons (.element "head" []
                (.cons (.element "script" [] (.cons (.text "var a = 1;") .nil))
                  (.cons (.element "title" [] (.cons (.text "T") .nil)) .nil)))
              (.cons (.element "body" [] (.cons (.text "hello") .nil)) .nil)))))),
          ("name", "wm-diff-title")] .nil) ∈ NodeList.toL hs3 :=
  render_self_no_markers [] [] []
    (.cons (.element "script" [] (.cons (.text "var a = 1;") .nil))
      (.cons (.element "title" [] (.cons (.text "T") .nil)) .nil))
    (.cons (.text "hello") .nil)
    (by decide) (by decide) (by decide) (by decide) (by decide) (by decide)
